import Mathlib

/-!
# Verification of the LogFocus multi-pattern line classification engine

This file is a shallow embedding, in Lean 4, of the core of the LogFocus
extension: the pattern combiner (`buildCombinedRegex`), the single-pass line
classifier (`performCombinedAnalysis`), the per-filter result cache
(`updateCache` / `isAnalyzed` / `clearCache` / `getMatchedLines`), the
text-mode literal pattern compiler (the escaping step of `addFilter`), and the
focus-view generator (`FocusProvider.generateFilteredContent`).

Modelling conventions:

* JavaScript strings are `List Char`; document line numbers are `Nat`;
  the numeric `priority` property is `Int` (its values are produced by
  `Math.max(0, Math.min(100, v))`, so integer arithmetic is faithful).
* A compiled regular expression is modelled by its matching function
  (`MatcherF`): for a line and a start position it returns the length of the
  match the engine finds there, if any.  `litMatcher lit` is the matcher of a
  regex that is an escaped literal (no unescaped metacharacters); the
  never-matching regex `/(?!)/` is the constant-`none` matcher; a regex
  matching the empty string everywhere is `fun _ _ => some 0`.
  The combined alternation `(p1)|(p2)|...|(pn)` of `buildCombinedRegex` is
  modelled by the list of the sub-pattern matchers in the same order, which
  presumes each sub-pattern contributes exactly one capture group (sources
  without capture groups of their own), matching the source's index map that
  assigns capture group `index + 1` to the filter at `index`.
  JavaScript alternation semantics: `exec` returns the match at the leftmost
  possible start position at or after `lastIndex`, and at that position the
  first alternative (in pattern order) that can match is the one that
  captures.
* JavaScript `Map` and `Set` objects are modelled by functions
  `key → Option value` / `key → Bool` updated pointwise, or by `Finset ℕ`
  where only membership is consumed; `Set<number>` whose insertion order is
  observed is a duplicate-free `List Nat` grown with `insertNat`.
* `Array.prototype.sort` with comparator `(a, b) => b.priority - a.priority`
  is a stable descending sort (stability is guaranteed by the language
  specification); it is modelled by the stable insertion sort
  `sortStableDesc`.
-/

namespace LogFocus

/-- `FocusAction` from `filter.ts`: a filter's effect on the focus view. -/
inductive FocusAction where
  | included
  | excluded
  | none
deriving DecidableEq, Repr

/-- `FilterMode` from `filter.ts`: how the filter's pattern source is interpreted. -/
inductive FilterMode where
  | text
  | regex
deriving DecidableEq, Repr

/-- A compiled pattern, modelled by its matching function: given a line and a
start position, the length of the match the regex engine finds there, if any. -/
abbrev MatcherF : Type := List Char → Nat → Option Nat

/-- The engine-relevant state of the `Filter` class from `filter.ts`:
pattern, mode, text pattern, clamped priority, focus action, and the
per-document result cache (`_lineCache` and `_analyzedUris`). -/
structure Filter where
  id : String
  regex : MatcherF
  mode : FilterMode
  textPattern : List Char
  priority : Int
  focusAction : FocusAction
  isHighlighted : Bool
  lineCache : String → Option (List Nat)
  analyzedUris : String → Bool

/-- `Math.max(0, Math.min(100, value))`, the clamp used by the `Filter`
constructor and the `priority` setter. -/
def clampPriority (value : Int) : Int :=
  max 0 (min 100 value)

/-- The `Filter` constructor: stores the regex, defaults mode to `REGEX`,
text pattern to `""`, focus action to `INCLUDED`, highlighting on, clamps the
priority argument (default 50), and starts with empty caches. -/
def mkFilter (id : String) (regex : MatcherF) (priority : Int := 50) : Filter :=
  { id := id
    regex := regex
    mode := FilterMode.regex
    textPattern := []
    priority := clampPriority priority
    focusAction := FocusAction.included
    isHighlighted := true
    lineCache := fun _ => Option.none
    analyzedUris := fun _ => false }

/-- The `priority` property setter: `this._priority = Math.max(0, Math.min(100, value))`. -/
def Filter.setPriority (f : Filter) (value : Int) : Filter :=
  { f with priority := clampPriority value }

/-- `Filter.updateCache(uri, matchedLines)`: overwrite the cache entry for
`uri` and mark `uri` analyzed. -/
def Filter.updateCache (f : Filter) (uri : String) (matchedLines : List Nat) : Filter :=
  { f with
    lineCache := fun u => if u = uri then some matchedLines else f.lineCache u
    analyzedUris := fun u => if u = uri then true else f.analyzedUris u }

/-- `Filter.isAnalyzed(uri)`: membership in `_analyzedUris`. -/
def Filter.isAnalyzed (f : Filter) (uri : String) : Bool :=
  f.analyzedUris uri

/-- `Filter.clearCache(uri?)`: with an argument, delete that entry from both
structures; with no argument, clear both structures entirely. -/
def Filter.clearCache (f : Filter) (uri : Option String) : Filter :=
  match uri with
  | some u =>
      { f with
        lineCache := fun v => if v = u then Option.none else f.lineCache v
        analyzedUris := fun v => if v = u then false else f.analyzedUris v }
  | Option.none =>
      { f with lineCache := fun _ => Option.none, analyzedUris := fun _ => false }

/-- `Filter.getMatchedLines(uri)`: the cached array, or `[]` when absent. -/
def Filter.getMatchedLines (f : Filter) (uri : String) : List Nat :=
  (f.lineCache uri).getD []

/-- One call against a filter's cache interface, used to state how cache reads
evolve over time. -/
inductive CacheOp where
  | update (uri : String) (lines : List Nat)
  | clearOne (uri : String)
  | clearAll

/-- Run one cache call on a filter. -/
def applyOp (f : Filter) : CacheOp → Filter
  | CacheOp.update u l => f.updateCache u l
  | CacheOp.clearOne u => f.clearCache (some u)
  | CacheOp.clearAll => f.clearCache Option.none

/-- Run a sequence of cache calls on a filter, oldest first. -/
def applyOps (f : Filter) (ops : List CacheOp) : Filter :=
  ops.foldl applyOp f

/-- Whether a cache call affects the entry of `uri`. -/
def touches (uri : String) : CacheOp → Bool
  | CacheOp.update u _ => u = uri
  | CacheOp.clearOne u => u = uri
  | CacheOp.clearAll => true

/-- One step of the freshness state machine for the entry of `uri`: an
`update` for `uri` makes it stale, a clear covering `uri` makes it fresh
again, other calls leave it alone. -/
def freshStep (uri : String) (fresh : Bool) : CacheOp → Bool
  | CacheOp.update u _ => if u = uri then false else fresh
  | CacheOp.clearOne u => if u = uri then true else fresh
  | CacheOp.clearAll => true

/-- Fold `freshStep` over the op sequence, starting from the fresh state of a
newly constructed filter. -/
def freshFor (uri : String) (ops : List CacheOp) : Bool :=
  ops.foldl (freshStep uri) true

/-! ## Text mode: metacharacter escaping and literal matching -/

/-- The characters of the character class in
`pattern.replace(/[.*+?^$\x7b\x7d()|[\]\\]/g, '\\$&')` in `addFilter`:
every metacharacter reserved by the regex language. -/
def regexMetaChars : List Char :=
  ['.', '*', '+', '?', '^', '$', Char.ofNat 123, Char.ofNat 125,
   '(', ')', '|', '[', ']', '\\']

/-- Whether a character is one of the escaped metacharacters. -/
def isRegexMeta (c : Char) : Bool :=
  regexMetaChars.contains c

/-- The TEXT-mode escaping step of `addFilter` / `editFilter`: prepend a
backslash to every regex metacharacter. -/
def escapeRegExp : List Char → List Char
  | [] => []
  | c :: rest =>
      if isRegexMeta c then '\\' :: c :: escapeRegExp rest
      else c :: escapeRegExp rest

/-- `new RegExp(source)` restricted to the escaped-literal sublanguage: a
pattern consisting of literal characters and `\c` escapes compiles to the
literal character sequence it matches; a pattern with an unescaped
metacharacter is outside this mini engine (`none`). -/
def compileLiteral : List Char → Option (List Char)
  | [] => some []
  | c :: rest =>
      if c = '\\' then
        match rest with
        | [] => Option.none
        | d :: rest2 => (compileLiteral rest2).map (fun l => d :: l)
      else if isRegexMeta c then Option.none
      else (compileLiteral rest).map (fun l => c :: l)

/-- The matcher of a regex that is a plain literal: it matches at `i` exactly
when the literal is the next `lit.length` characters, consuming them. -/
def litMatcher (lit : List Char) : MatcherF :=
  fun line i => if lit.isPrefixOf (line.drop i) then some lit.length else Option.none

/-- The matcher of the regex `addFilter` compiles in TEXT mode:
`new RegExp(escaped)` where `escaped` is the metacharacter-escaped pattern. -/
def textModeRegex (p : List Char) : MatcherF :=
  match compileLiteral (escapeRegExp p) with
  | some lit => litMatcher lit
  | Option.none => fun _ _ => Option.none

/-- `RegExp.prototype.test(line)` for a modelled matcher: true when a match
exists at some position of the line (positions `0 .. line.length`). -/
def regexTest (m : MatcherF) (line : List Char) : Bool :=
  (List.range (line.length + 1)).any (fun i => (m line i).isSome)

/-- `String.prototype.includes(pattern)`: the pattern occurs as a contiguous
substring. -/
def includesList (line p : List Char) : Bool :=
  (List.range (line.length + 1)).any (fun i => p.isPrefixOf (line.drop i))

/-- `Filter.test(line)` from `filter.ts`: TEXT mode is literal containment of
`textPattern`; REGEX mode is `regex.test(line)`. -/
def Filter.test (f : Filter) (line : List Char) : Bool :=
  match f.mode with
  | FilterMode.text => includesList line f.textPattern
  | FilterMode.regex => regexTest f.regex line

/-- The filter built by the TEXT branch of `addFilter`: compile the escaped
pattern, then set `mode` and `textPattern`. -/
def addTextFilter (id : String) (p : List Char) : Filter :=
  { mkFilter id (textModeRegex p) 50 with
    mode := FilterMode.text
    textPattern := p }

/-! ## Pattern combiner and single-pass line classifier (`utils.ts`) -/

/-- `text.split('\n')`, accumulator form. -/
def splitLinesAux : List Char → List Char → List (List Char)
  | [], cur => [cur.reverse]
  | c :: rest, cur =>
      if c = '\n' then cur.reverse :: splitLinesAux rest []
      else splitLinesAux rest (c :: cur)

/-- `text.split('\n')`: split on newline, keeping empty segments (a trailing
newline yields a trailing empty line; carriage returns are kept). -/
def splitLines (text : List Char) : List (List Char) :=
  splitLinesAux text []

/-- Which alternative of the combined alternation matches at position `i`:
JavaScript tries the alternatives in pattern order and the first that matches
wins.  `k` is the 1-based index of the first matcher in `ms`. -/
def firstAltFrom (ms : List MatcherF) (line : List Char) (i : Nat) (k : Nat) :
    Option (Nat × Nat) :=
  match ms with
  | [] => Option.none
  | m :: rest =>
      match m line i with
      | some len => some (k, len)
      | Option.none => firstAltFrom rest line i (k + 1)

/-- First matching alternative at position `i`, with its match length;
alternative indices are 1-based like the capture group numbers. -/
def firstAlt (ms : List MatcherF) (line : List Char) (i : Nat) : Option (Nat × Nat) :=
  firstAltFrom ms line i 1

/-- Helper for `execFind`: try the positions `pos, pos + 1, ...` while `rem`
counts the remaining candidate positions (`line.length + 1 - pos`). -/
def execFindAux (ms : List MatcherF) (line : List Char) :
    Nat → Nat → Option (Nat × Nat × Nat)
  | 0, _ => Option.none
  | rem + 1, pos =>
      match firstAlt ms line pos with
      | some (k, len) => some (pos, k, len)
      | Option.none => execFindAux ms line rem (pos + 1)

/-- `combinedRegex.exec(line)` with `lastIndex = pos`: the match at the
leftmost start position in `pos .. line.length`, as
`(start, alternative, length)`; `none` when the rest of the line has no
match (in particular whenever `pos > line.length`). -/
def execFind (ms : List MatcherF) (line : List Char) (pos : Nat) :
    Option (Nat × Nat × Nat) :=
  execFindAux ms line (line.length + 1 - pos) pos

/-- The `while ((match = combinedRegex.exec(line)) !== null)` loop of
`performCombinedAnalysis`, fuelled: returns the 1-based alternative index of
each match found, in scan order.  After each match the scan position becomes
the match end, bumped by one for a zero-length match
(`if (match.index === combinedRegex.lastIndex) combinedRegex.lastIndex++`).
`none` means the fuel ran out before the loop finished. -/
def scanLineFuel : Nat → List MatcherF → List Char → Nat → Option (List Nat)
  | 0, _, _, _ => Option.none
  | fuel + 1, ms, line, pos =>
      match execFind ms line pos with
      | Option.none => some []
      | some (i, k, len) =>
          match scanLineFuel fuel ms line (if len = 0 then i + 1 else i + len) with
          | Option.none => Option.none
          | some rest => some (k :: rest)

/-- The alternative indices observed on one line: the loop run with enough
fuel (`line.length + 2` iterations always suffice, see `scan_termination`). -/
def scanLine (ms : List MatcherF) (line : List Char) : List Nat :=
  (scanLineFuel (line.length + 2) ms line 0).getD []

/-- One entry of the `filterMap` built by `buildCombinedRegex`:
`(filterId, isExclude)` for one alternative. -/
structure CombinedInfo where
  filterId : String
  isExclude : Bool
deriving DecidableEq, Repr

/-- `filterMap.get(k)`: the map produced by `buildCombinedRegex` binds key
`index + 1` to the entry for the sorted filter at `index`. -/
def getInfo (fmap : List CombinedInfo) (k : Nat) : Option CombinedInfo :=
  match k with
  | 0 => Option.none
  | j + 1 => fmap[j]?

/-- `filterResults`: per filter id, the matched line set and the exclude flag. -/
abbrev ResultsMap : Type := String → Option (List Nat × Bool)

/-- `linePriorityWinners`: per line number, the winning filter id. -/
abbrev WinnersMap : Type := Nat → Option String

/-- `filterResults.set(filterId, { lines: new Set(), isExclude })`: one step
of the initialization loop of `performCombinedAnalysis`. -/
def initStep (res : ResultsMap) (info : CombinedInfo) : ResultsMap :=
  fun fid =>
    if fid = info.filterId then some ([], info.isExclude) else res fid

/-- The initialization loop of `performCombinedAnalysis`: an empty line set
per mapped filter id. -/
def initResults (fmap : List CombinedInfo) : ResultsMap :=
  fmap.foldl initStep (fun _ => Option.none)

/-- `Set.prototype.add` on a duplicate-free list kept in insertion order. -/
def insertNat (n : Nat) (s : List Nat) : List Nat :=
  if n ∈ s then s else s ++ [n]

/-- `filterResults.get(filterId)!.lines.add(lineIndex)`; a missing entry is
left missing (the source would throw, which is unreachable because every
observed alternative was initialized from the same map). -/
def addLine (res : ResultsMap) (fid : String) (n : Nat) : ResultsMap :=
  fun x =>
    if x = fid then (res fid).map (fun p => (insertNat n p.1, p.2)) else res x

/-- `if (i < bestFilterIndex) bestFilterIndex = i`, with `none` standing for
the initial `Infinity`. -/
def updateBest : Option Nat → Nat → Option Nat
  | Option.none, k => some k
  | some b, k => if k < b then some k else some b

/-- The per-match body of the classifier loop: look the observed alternative
up in the map; when present, record the line for its filter and lower the
best (lowest) alternative index. -/
def stepObs (fmap : List CombinedInfo) (lineIdx : Nat)
    (acc : ResultsMap × Option Nat) (k : Nat) : ResultsMap × Option Nat :=
  match getInfo fmap k with
  | some info => (addLine acc.1 info.filterId lineIdx, updateBest acc.2 k)
  | Option.none => acc

/-- The `bestFilterIndex` tracking alone: lower the best index when the
observed alternative is mapped. -/
def bestStep (fmap : List CombinedInfo) (b : Option Nat) (k : Nat) : Option Nat :=
  if (getInfo fmap k).isSome then updateBest b k else b

/-- Lowest mapped alternative index among the observed ones (the final value
of `bestFilterIndex`, `none` for `Infinity`). -/
def lineBest (fmap : List CombinedInfo) (obs : List Nat) : Option Nat :=
  obs.foldl (bestStep fmap) Option.none

/-- The filter id recorded as the line's priority winner, if any. -/
def lineWinner (fmap : List CombinedInfo) (obs : List Nat) : Option String :=
  match lineBest fmap obs with
  | some b => (getInfo fmap b).map (fun info => info.filterId)
  | Option.none => Option.none

/-- Process one line of the classifier: fold the observed alternatives into
the results and record the priority winner when one exists. -/
def processLine (fmap : List CombinedInfo) (lineIdx : Nat) (obs : List Nat)
    (res : ResultsMap) (win : WinnersMap) : ResultsMap × WinnersMap :=
  let folded := obs.foldl (stepObs fmap lineIdx) (res, Option.none)
  match folded.2 with
  | some b =>
      match getInfo fmap b with
      | some w =>
          (folded.1, fun n => if n = lineIdx then some w.filterId else win n)
      | Option.none => (folded.1, win)
  | Option.none => (folded.1, win)

/-- `lines.forEach((line, lineIndex) => ...)`: scan every line, threading the
result maps. -/
def analyzeLoop (ms : List MatcherF) (fmap : List CombinedInfo) :
    List (List Char) → Nat → ResultsMap × WinnersMap → ResultsMap × WinnersMap
  | [], _, st => st
  | line :: rest, idx, st =>
      analyzeLoop ms fmap rest (idx + 1)
        (processLine fmap idx (scanLine ms line) st.1 st.2)

/-- `performCombinedAnalysis(text, combinedRegex, filterMap)` from `utils.ts`:
split the text into lines, initialize an empty result set per mapped filter,
scan each line once with the combined matcher, and return the per-filter
matched-line sets plus the per-line priority winners. -/
def performCombinedAnalysis (text : List Char) (combinedRegex : List MatcherF)
    (fmap : List CombinedInfo) : ResultsMap × WinnersMap :=
  analyzeLoop combinedRegex fmap (splitLines text) 0
    (initResults fmap, fun _ => Option.none)

/-- Stable insertion of a filter into a descending-priority list: the filter
goes after every filter of priority greater than or equal to its own. -/
def insertDesc (f : Filter) : List Filter → List Filter
  | [] => [f]
  | g :: rest =>
      if g.priority < f.priority then f :: g :: rest
      else g :: insertDesc f rest

/-- `[...filters].sort((a, b) => b.priority - a.priority)`: a stable
descending sort by priority (JavaScript sort is stable). -/
def sortStableDesc (l : List Filter) : List Filter :=
  l.foldl (fun acc f => insertDesc f acc) []

/-- `buildCombinedRegex(filters)` from `utils.ts`: an empty filter list yields
the never-matching regex `/(?!)/` (the empty matcher list) and an empty map;
otherwise the filters are stable-sorted by descending priority, each pattern
becomes one alternative, and map key `index + 1` records
`(filterId, focusAction === EXCLUDED)`. -/
def buildCombinedRegex (filters : List Filter) :
    List MatcherF × List CombinedInfo :=
  if filters.length = 0 then ([], [])
  else
    let sorted := sortStableDesc filters
    (sorted.map (fun f => f.regex),
     sorted.map (fun f => ⟨f.id, f.focusAction = FocusAction.excluded⟩))

/-! ## Focus view generator (`focusProvider.ts`) -/

/-- `getActiveFiltersSorted()`: the project's filters with a focus action,
sorted by descending priority, partitioned into inclusive and exclusive
(order preserved). -/
def getActiveFiltersSorted (projectFilters : List Filter) :
    List Filter × List Filter :=
  let eligible :=
    sortStableDesc
      (projectFilters.filter (fun f => decide (f.focusAction ≠ FocusAction.none)))
  (eligible.filter (fun f => decide (f.focusAction = FocusAction.included)),
   eligible.filter (fun f => decide (f.focusAction = FocusAction.excluded)))

/-- The candidate set of `generateFilteredContent`: the union of the
inclusive filters' cached lines, or every line of the document when no
inclusive filter is active. -/
def focusCandidates (inc : List Filter) (uri : String) (lineCount : Nat) :
    Finset Nat :=
  if inc.length > 0 then
    inc.foldl
      (fun s f => (f.getMatchedLines uri).foldl (fun t n => insert n t) s) ∅
  else
    (List.range lineCount).foldl (fun t n => insert n t) ∅

/-- The `resultLines` set of `generateFilteredContent` after the
unconditional subtraction of every exclusive filter's cached lines. -/
def focusResultLines (projectFilters : List Filter) (uri : String)
    (lineCount : Nat) : Finset Nat :=
  let parts := getActiveFiltersSorted projectFilters
  parts.2.foldl
    (fun s f => (f.getMatchedLines uri).foldl (fun t n => t.erase n) s)
    (focusCandidates parts.1 uri lineCount)

/-- `FocusProvider.generateFilteredContent`, abstracted to the line numbers
it renders: the result set sorted ascending, keeping only line numbers that
exist in the document (`if (lineNum < document.lineCount)` before pushing the
line's text). -/
def generateFilteredContent (projectFilters : List Filter) (uri : String)
    (lineCount : Nat) : List Nat :=
  ((focusResultLines projectFilters uri lineCount).sort (· ≤ ·)).filter
    (fun n => n < lineCount)

/-! ## Specification-side helpers (used only to state properties) -/

/-- A matcher that matches the empty string at every position, the model of
a regex such as `/(?:)/` whose every match has length zero. -/
def matchEmptyEverywhere : MatcherF :=
  fun _ _ => some 0

/-- The descending-priority order used by the combiner's sort. -/
def priGe (a b : Filter) : Prop :=
  b.priority ≤ a.priority

/-- Some observed alternative of this line maps to the filter id `fid`. -/
def lineObserves (fmap : List CombinedInfo) (obs : List Nat) (fid : String) : Prop :=
  ∃ k ∈ obs, ∃ info, getInfo fmap k = some info ∧ info.filterId = fid

/-- Some line of `lines` (the one at offset `j`, absolute line number
`idx + j = n`) observes `fid` during the scan. -/
def linesObserve (ms : List MatcherF) (fmap : List CombinedInfo)
    (lines : List (List Char)) (idx n : Nat) (fid : String) : Prop :=
  ∃ j line, lines[j]? = some line ∧ n = idx + j ∧
    lineObserves fmap (scanLine ms line) fid

/-- The winners-map update a processed line performs: record the winner at
the line's own index when one exists, else leave the map alone. -/
def winUpdate (win : WinnersMap) (lineIdx : Nat) : Option String → WinnersMap
  | some fid => fun n => if n = lineIdx then some fid else win n
  | Option.none => win

/-- The filters whose alternative was observed (captured) by the combined
single scan on line `n` of `text`, when the combined regex of `filters` is
used: alternative `k` belongs to the `k - 1`-th filter of the sorted order. -/
def observedFilters (filters : List Filter) (text : List Char) (n : Nat) :
    List Filter :=
  match (splitLines text)[n]? with
  | Option.none => []
  | some line =>
      (scanLine (buildCombinedRegex filters).1 line).filterMap
        (fun k => (sortStableDesc filters)[k - 1]?)

/-- Concrete filter `A = /ab/`, priority 50 (an escaped-literal pattern). -/
def cexFilterA : Filter := mkFilter "A" (litMatcher ['a', 'b']) 50

/-- Concrete filter `B = /b/`, priority 50. -/
def cexFilterB : Filter := mkFilter "B" (litMatcher ['b']) 50

/-- Concrete filter `A = /ba/`, priority 100. -/
def cexFilterC : Filter := mkFilter "A" (litMatcher ['b', 'a']) 100

/-- Concrete filter `B = /ab/`, priority 50. -/
def cexFilterD : Filter := mkFilter "B" (litMatcher ['a', 'b']) 50

/-- Concrete inclusive filter `/error/` with cached matched lines `{1, 3}`
for document `"doc"`. -/
def focusIncFilter : Filter :=
  { mkFilter "inc" (litMatcher ['e', 'r', 'r', 'o', 'r']) 50 with
    lineCache := fun u => if u = "doc" then some [1, 3] else Option.none }

/-- Concrete exclusive filter `/debug/` with cached matched lines `{3}`
for document `"doc"`. -/
def focusExcFilter : Filter :=
  { mkFilter "exc" (litMatcher ['d', 'e', 'b', 'u', 'g']) 50 with
    focusAction := FocusAction.excluded
    lineCache := fun u => if u = "doc" then some [3] else Option.none }

/-! ## Cache lemmas and claims C6, C8, C10 -/

theorem applyOp_untouched (uri : String) (op : CacheOp)
    (h : touches uri op = false) (f : Filter) :
    (applyOp f op).lineCache uri = f.lineCache uri ∧
      (applyOp f op).analyzedUris uri = f.analyzedUris uri := by
  cases op with
  | update u l =>
      have hne : uri ≠ u := by
        simp only [touches, decide_eq_false_iff_not] at h
        exact fun e => h e.symm
      simp [applyOp, Filter.updateCache, hne]
  | clearOne u =>
      have hne : uri ≠ u := by
        simp only [touches, decide_eq_false_iff_not] at h
        exact fun e => h e.symm
      simp [applyOp, Filter.clearCache, hne]
  | clearAll => simp [touches] at h

theorem applyOps_untouched (uri : String) (ops : List CacheOp)
    (h : ∀ op ∈ ops, touches uri op = false) (f : Filter) :
    (applyOps f ops).lineCache uri = f.lineCache uri ∧
      (applyOps f ops).analyzedUris uri = f.analyzedUris uri := by
  induction ops generalizing f with
  | nil => exact ⟨rfl, rfl⟩
  | cons op rest ih =>
      have h1 := applyOp_untouched uri op (h op (by simp)) f
      have h2 := ih (fun o ho => h o (by simp [ho])) (applyOp f op)
      simp only [applyOps, List.foldl_cons] at h2 ⊢
      exact ⟨h2.1.trans h1.1, h2.2.trans h1.2⟩

/-- C6 (cache coherence): immediately after `updateCache(uri, lines)`,
`isAnalyzed(uri)` is true and `getMatchedLines(uri)` is exactly `lines`; this
persists across any later calls that do not touch `uri`;
`clearCache(uri)` makes `isAnalyzed(uri)` false and empties the read while
leaving every other uri's entries untouched; `clearCache()` with no argument
empties both structures for every uri; and a further `updateCache` for the
same uri overwrites rather than accumulates. -/
theorem cache_coherence (f : Filter) (uri : String) (lines : List Nat) :
    ((f.updateCache uri lines).isAnalyzed uri = true ∧
      (f.updateCache uri lines).getMatchedLines uri = lines) ∧
    (∀ ops : List CacheOp, (∀ op ∈ ops, touches uri op = false) →
      (applyOps (f.updateCache uri lines) ops).isAnalyzed uri = true ∧
        (applyOps (f.updateCache uri lines) ops).getMatchedLines uri = lines) ∧
    (((f.updateCache uri lines).clearCache (some uri)).isAnalyzed uri = false ∧
      ((f.updateCache uri lines).clearCache (some uri)).getMatchedLines uri = []) ∧
    (∀ u, u ≠ uri →
      ((f.updateCache uri lines).clearCache (some uri)).lineCache u
          = (f.updateCache uri lines).lineCache u ∧
        ((f.updateCache uri lines).clearCache (some uri)).analyzedUris u
          = (f.updateCache uri lines).analyzedUris u) ∧
    (∀ u, ((f.updateCache uri lines).clearCache Option.none).getMatchedLines u = [] ∧
      ((f.updateCache uri lines).clearCache Option.none).isAnalyzed u = false) ∧
    (∀ lines2,
      ((f.updateCache uri lines).updateCache uri lines2).getMatchedLines uri = lines2) := by
  refine ⟨⟨?_, ?_⟩, ?_, ⟨?_, ?_⟩, ?_, ?_, ?_⟩
  · simp [Filter.updateCache, Filter.isAnalyzed]
  · simp [Filter.updateCache, Filter.getMatchedLines]
  · intro ops hops
    have h := applyOps_untouched uri ops hops (f.updateCache uri lines)
    refine ⟨?_, ?_⟩
    · rw [Filter.isAnalyzed, h.2]
      simp [Filter.updateCache]
    · rw [Filter.getMatchedLines, h.1]
      simp [Filter.updateCache]
  · simp [Filter.updateCache, Filter.clearCache, Filter.isAnalyzed]
  · simp [Filter.updateCache, Filter.clearCache, Filter.getMatchedLines]
  · intro u hu
    constructor <;> simp [Filter.clearCache, hu]
  · intro u
    constructor <;> simp [Filter.clearCache, Filter.getMatchedLines, Filter.isAnalyzed]
  · intro lines2
    simp [Filter.updateCache, Filter.getMatchedLines]

/-- Witness for C6 at a concrete filter, uri, line set and op sequence. -/
theorem cache_coherence_witness :
    (applyOps ((mkFilter "w6" matchEmptyEverywhere 50).updateCache "doc" [1, 3])
        [CacheOp.update "other" [9]]).getMatchedLines "doc" = [1, 3] :=
  ((cache_coherence (mkFilter "w6" matchEmptyEverywhere 50) "doc" [1, 3]).2.1
    [CacheOp.update "other" [9]] (by decide)).2

/-- C8 (priority clamp): construction and every assignment to `priority`
clamp the value into `[0, 100]`, to the nearest bound when out of range. -/
theorem priority_clamp :
    ∀ (id : String) (m : MatcherF) (p : Int) (f : Filter) (v : Int),
    (0 ≤ (mkFilter id m p).priority ∧ (mkFilter id m p).priority ≤ 100) ∧
    (0 ≤ (f.setPriority v).priority ∧ (f.setPriority v).priority ≤ 100) ∧
    (v < 0 → (f.setPriority v).priority = 0) ∧
    (100 < v → (f.setPriority v).priority = 100) ∧
    (0 ≤ v → v ≤ 100 → (f.setPriority v).priority = v) := by
  intro id m p f v
  simp only [mkFilter, Filter.setPriority, clampPriority]
  omega

/-- Witness for C8: an out-of-range assignment lands on the nearest bound. -/
theorem priority_clamp_witness :
    ((mkFilter "w8" matchEmptyEverywhere 50).setPriority (-7)).priority = 0 :=
  (priority_clamp "w8" matchEmptyEverywhere 50
    (mkFilter "w8" matchEmptyEverywhere 50) (-7)).2.2.1 (by decide)

theorem freshFor_reads (uri : String) (ops : List CacheOp) (f : Filter) (b : Bool)
    (hb : b = true → f.lineCache uri = Option.none ∧ f.analyzedUris uri = false)
    (h : ops.foldl (freshStep uri) b = true) :
    (applyOps f ops).lineCache uri = Option.none ∧
      (applyOps f ops).analyzedUris uri = false := by
  induction ops generalizing f b with
  | nil =>
      simpa [applyOps] using hb (by simpa using h)
  | cons op rest ih =>
      simp only [applyOps, List.foldl_cons] at h ⊢
      refine ih (applyOp f op) (freshStep uri b op) ?_ h
      intro hf
      cases op with
      | update u l =>
          simp only [freshStep] at hf
          by_cases he : u = uri
          · simp [he] at hf
          · have hne : uri ≠ u := fun e => he e.symm
            have := hb (by simpa [freshStep, he] using hf)
            simpa [applyOp, Filter.updateCache, hne] using this
      | clearOne u =>
          by_cases he : u = uri
          · subst he
            simp [applyOp, Filter.clearCache]
          · have hne : uri ≠ u := fun e => he e.symm
            have := hb (by simpa [freshStep, he] using hf)
            simpa [applyOp, Filter.clearCache, hne] using this
      | clearAll =>
          simp [applyOp, Filter.clearCache]

/-- C10 (unanalyzed read is total and empty): for a document identity never
updated since the last clear covering it, `getMatchedLines` returns `[]`
(never fails) and `isAnalyzed` returns false; and after `updateCache(uri, [])`
the read is the same `[]` while only `isAnalyzed` distinguishes the states. -/
theorem unanalyzed_read_total :
    ∀ (id : String) (m : MatcherF) (p : Int) (ops : List CacheOp)
      (uri : String),
    (freshFor uri ops = true →
      (applyOps (mkFilter id m p) ops).getMatchedLines uri = [] ∧
        (applyOps (mkFilter id m p) ops).isAnalyzed uri = false) ∧
    (∀ f : Filter,
      (f.updateCache uri []).getMatchedLines uri = [] ∧
        (f.updateCache uri []).isAnalyzed uri = true) := by
  intro id m p ops uri
  constructor
  · intro h
    have := freshFor_reads uri ops (mkFilter id m p) true
      (fun _ => ⟨rfl, rfl⟩) (by simpa [freshFor] using h)
    exact ⟨by simp [Filter.getMatchedLines, this.1], by simp [Filter.isAnalyzed, this.2]⟩
  · intro f
    constructor
    · simp [Filter.updateCache, Filter.getMatchedLines]
    · simp [Filter.updateCache, Filter.isAnalyzed]

/-- Witness for C10: after an update for another uri and a clear-all followed
by nothing touching `"a"`, the read for `"a"` is empty and unanalyzed. -/
theorem unanalyzed_read_total_witness :
    (applyOps (mkFilter "w10" matchEmptyEverywhere 50)
        [CacheOp.update "a" [1], CacheOp.clearAll]).isAnalyzed "a" = false :=
  ((unanalyzed_read_total "w10" matchEmptyEverywhere 50
    [CacheOp.update "a" [1], CacheOp.clearAll] "a").1 (by decide)).2

/-! ## Text-mode literal matching: claim C5 -/

theorem compileLiteral_escape (p : List Char) :
    compileLiteral (escapeRegExp p) = some p := by
  induction p with
  | nil => rfl
  | cons c rest ih =>
      by_cases hm : isRegexMeta c = true
      · simp [escapeRegExp, hm, compileLiteral, ih]
      · have hc : ¬(c = '\\') := by
          intro e
          subst e
          simp [isRegexMeta, regexMetaChars] at hm
        rw [escapeRegExp, if_neg hm, compileLiteral.eq_def]
        simp [hc, hm, ih]

theorem litMatcher_isSome (lit line : List Char) (i : Nat) :
    (litMatcher lit line i).isSome = lit.isPrefixOf (line.drop i) := by
  simp only [litMatcher]
  split
  · simp_all
  · rename_i h
    exact (Bool.eq_false_iff.mpr h).symm

theorem includesList_iff_infix (line p : List Char) :
    includesList line p = true ↔ p.IsInfix line := by
  constructor
  · intro h
    simp only [includesList, List.any_eq_true, List.mem_range] at h
    obtain ⟨i, _hi, hp⟩ := h
    have hpre : p <+: line.drop i := List.isPrefixOf_iff_prefix.mp hp
    exact List.infix_iff_prefix_suffix.mpr ⟨line.drop i, hpre, List.drop_suffix i line⟩
  · intro h
    obtain ⟨t, hpre, hsuf⟩ := List.infix_iff_prefix_suffix.mp h
    obtain ⟨s, hs⟩ := hsuf
    simp only [includesList, List.any_eq_true, List.mem_range]
    refine ⟨s.length, ?_, ?_⟩
    · have hlen : s.length ≤ line.length := by
        rw [← hs]
        simp
      omega
    · rw [List.isPrefixOf_iff_prefix, ← hs, List.drop_left]
      exact hpre

theorem regexTest_litMatcher (p line : List Char) :
    regexTest (litMatcher p) line = includesList line p := by
  rw [Bool.eq_iff_iff]
  simp only [regexTest, includesList, List.any_eq_true, List.mem_range,
    litMatcher_isSome]

theorem textModeRegex_eq_litMatcher (p : List Char) :
    textModeRegex p = litMatcher p := by
  simp [textModeRegex, compileLiteral_escape]

/-- C5 (text-mode literal matching): the TEXT-mode escaping step compiles to
a regex that is exactly the literal pattern, and both that regex and
`Filter.test` in TEXT mode match a line precisely when the line contains the
original pattern string as a contiguous literal substring. -/
theorem text_mode_literal (id : String) (p line : List Char) :
    compileLiteral (escapeRegExp p) = some p ∧
    (regexTest (textModeRegex p) line = true ↔ p.IsInfix line) ∧
    ((addTextFilter id p).test line = true ↔ p.IsInfix line) := by
  refine ⟨compileLiteral_escape p, ?_, ?_⟩
  · rw [textModeRegex_eq_litMatcher, regexTest_litMatcher]
    exact includesList_iff_infix line p
  · show includesList line p = true ↔ p.IsInfix line
    exact includesList_iff_infix line p

/-! ## Stable sort lemmas -/

theorem insertDesc_perm (f : Filter) (l : List Filter) :
    (insertDesc f l).Perm (f :: l) := by
  induction l with
  | nil => exact List.Perm.refl _
  | cons g rest ih =>
      simp only [insertDesc]
      split
      · exact List.Perm.refl _
      · exact (ih.cons g).trans (List.Perm.swap f g rest)

theorem insertDesc_pairwise (f : Filter) (l : List Filter)
    (h : l.Pairwise priGe) : (insertDesc f l).Pairwise priGe := by
  induction l with
  | nil => simp [insertDesc]
  | cons g rest ih =>
      rw [List.pairwise_cons] at h
      simp only [insertDesc]
      split
      · rename_i hlt
        refine List.Pairwise.cons ?_ (List.Pairwise.cons h.1 h.2)
        intro x hx
        rcases List.mem_cons.mp hx with hx | hx
        · subst hx
          exact le_of_lt hlt
        · exact le_trans (h.1 x hx) (le_of_lt hlt)
      · rename_i hge
        refine List.Pairwise.cons ?_ (ih h.2)
        intro x hx
        rcases List.mem_cons.mp ((insertDesc_perm f rest).mem_iff.mp hx) with hx | hx
        · subst hx
          exact not_lt.mp hge
        · exact h.1 x hx

theorem insertDesc_filter_eq (f : Filter) (l : List Filter) (p : Int)
    (hs : l.Pairwise priGe) (hp : f.priority = p) :
    (insertDesc f l).filter (fun x => decide (x.priority = p))
      = l.filter (fun x => decide (x.priority = p)) ++ [f] := by
  induction l with
  | nil => simp [insertDesc, hp]
  | cons g rest ih =>
      rw [List.pairwise_cons] at hs
      simp only [insertDesc]
      split
      · rename_i hlt
        have hg : ¬(g.priority = p) := by omega
        have hrest : rest.filter (fun x => decide (x.priority = p)) = [] := by
          rw [List.filter_eq_nil_iff]
          intro x hx
          have := hs.1 x hx
          simp only [priGe] at this
          simp only [decide_eq_true_eq]
          omega
        simp [List.filter_cons, hp, hg, hrest]
      · rename_i hge
        simp only [List.filter_cons]
        rw [ih hs.2]
        split <;> simp

theorem insertDesc_filter_ne (f : Filter) (l : List Filter) (p : Int)
    (hp : ¬(f.priority = p)) :
    (insertDesc f l).filter (fun x => decide (x.priority = p))
      = l.filter (fun x => decide (x.priority = p)) := by
  induction l with
  | nil => simp [insertDesc, hp]
  | cons g rest ih =>
      simp only [insertDesc]
      split
      · simp [List.filter_cons, hp]
      · simp only [List.filter_cons]
        rw [ih]

theorem foldl_insertDesc_perm (l acc : List Filter) :
    (l.foldl (fun a f => insertDesc f a) acc).Perm (acc ++ l) := by
  induction l generalizing acc with
  | nil => simp
  | cons f rest ih =>
      simp only [List.foldl_cons]
      exact (ih (insertDesc f acc)).trans
        (((insertDesc_perm f acc).append_right rest).trans List.perm_middle.symm)

theorem foldl_insertDesc_pairwise (l acc : List Filter)
    (h : acc.Pairwise priGe) :
    (l.foldl (fun a f => insertDesc f a) acc).Pairwise priGe := by
  induction l generalizing acc with
  | nil => exact h
  | cons f rest ih =>
      simp only [List.foldl_cons]
      exact ih (insertDesc f acc) (insertDesc_pairwise f acc h)

theorem foldl_insertDesc_filter (l : List Filter) (p : Int) :
    ∀ acc : List Filter, acc.Pairwise priGe →
    (l.foldl (fun a f => insertDesc f a) acc).filter
        (fun x => decide (x.priority = p))
      = acc.filter (fun x => decide (x.priority = p))
        ++ l.filter (fun x => decide (x.priority = p)) := by
  induction l with
  | nil => intro acc _; simp
  | cons f rest ih =>
      intro acc h
      simp only [List.foldl_cons, List.filter_cons]
      rw [ih (insertDesc f acc) (insertDesc_pairwise f acc h)]
      by_cases hp : f.priority = p
      · rw [insertDesc_filter_eq f acc p h hp]
        simp [hp, List.append_assoc]
      · rw [insertDesc_filter_ne f acc p hp]
        simp [hp]

theorem sortStableDesc_perm (l : List Filter) : (sortStableDesc l).Perm l := by
  simpa [sortStableDesc] using foldl_insertDesc_perm l []

theorem sortStableDesc_pairwise (l : List Filter) :
    (sortStableDesc l).Pairwise priGe :=
  foldl_insertDesc_pairwise l [] (by simp)

theorem sortStableDesc_filter (l : List Filter) (p : Int) :
    (sortStableDesc l).filter (fun x => decide (x.priority = p))
      = l.filter (fun x => decide (x.priority = p)) := by
  simpa [sortStableDesc] using foldl_insertDesc_filter l p [] (by simp)

theorem pair_sublist {α : Type} (s : List α) (u v : Nat) (a b : α)
    (huv : u < v) (ha : s[u]? = some a) (hb : s[v]? = some b) :
    List.Sublist [a, b] s := by
  induction s generalizing u v with
  | nil => simp at ha
  | cons x t ih =>
      cases u with
      | zero =>
          simp only [List.getElem?_cons_zero, Option.some_inj] at ha
          subst ha
          cases v with
          | zero => omega
          | succ v2 =>
              simp only [List.getElem?_cons_succ] at hb
              have hbt : b ∈ t := by
                rcases List.getElem?_eq_some_iff.mp hb with ⟨h1, h2⟩
                subst h2
                exact List.getElem_mem h1
              exact List.Sublist.cons₂ _ (List.singleton_sublist.mpr hbt)
      | succ u2 =>
          cases v with
          | zero => omega
          | succ v2 =>
              simp only [List.getElem?_cons_succ] at ha hb
              exact List.Sublist.cons x (ih u2 v2 (by omega) ha hb)

/-! ## Scan lemmas: where observed alternatives come from -/

theorem firstAltFrom_some (ms : List MatcherF) (line : List Char) (i : Nat) :
    ∀ (k j len : Nat), firstAltFrom ms line i k = some (j, len) →
      k ≤ j ∧ j - k < ms.length ∧
        ∃ m, ms[j - k]? = some m ∧ m line i = some len := by
  induction ms with
  | nil =>
      intro k j len h
      simp [firstAltFrom] at h
  | cons m rest ih =>
      intro k j len h
      simp only [firstAltFrom] at h
      cases hm : m line i with
      | some len2 =>
          rw [hm] at h
          simp only [Option.some_inj, Prod.mk.injEq] at h
          obtain ⟨rfl, rfl⟩ := h
          refine ⟨le_refl k, by simp, m, ?_, hm⟩
          simp
      | none =>
          rw [hm] at h
          obtain ⟨h1, h2, mm, h3, h4⟩ := ih (k + 1) j len h
          refine ⟨by omega, by simp; omega, mm, ?_, h4⟩
          have he : j - k = (j - (k + 1)) + 1 := by omega
          rw [he, List.getElem?_cons_succ]
          exact h3

theorem firstAltFrom_none (ms : List MatcherF) (line : List Char) (i : Nat) :
    ∀ k, firstAltFrom ms line i k = Option.none ↔
      ∀ m ∈ ms, m line i = Option.none := by
  induction ms with
  | nil => simp [firstAltFrom]
  | cons m rest ih =>
      intro k
      simp only [firstAltFrom]
      cases hm : m line i with
      | some len => simp [hm]
      | none => simp [hm, ih (k + 1)]

theorem firstAlt_some (ms : List MatcherF) (line : List Char) (i k len : Nat)
    (h : firstAlt ms line i = some (k, len)) :
    1 ≤ k ∧ k - 1 < ms.length ∧
      ∃ m, ms[k - 1]? = some m ∧ m line i = some len :=
  firstAltFrom_some ms line i 1 k len h

theorem execFindAux_some (ms : List MatcherF) (line : List Char) :
    ∀ (rem pos i k len : Nat), execFindAux ms line rem pos = some (i, k, len) →
      pos ≤ i ∧ i < pos + rem ∧ firstAlt ms line i = some (k, len) := by
  intro rem
  induction rem with
  | zero =>
      intro pos i k len h
      simp [execFindAux] at h
  | succ r ih =>
      intro pos i k len h
      simp only [execFindAux] at h
      cases hf : firstAlt ms line pos with
      | some v =>
          rw [hf] at h
          obtain ⟨k2, len2⟩ := v
          simp only [Option.some_inj, Prod.mk.injEq] at h
          obtain ⟨rfl, rfl, rfl⟩ := h
          exact ⟨le_refl pos, by omega, hf⟩
      | none =>
          rw [hf] at h
          obtain ⟨h1, h2, h3⟩ := ih (pos + 1) i k len h
          exact ⟨by omega, by omega, h3⟩

theorem execFind_some (ms : List MatcherF) (line : List Char) (pos i k len : Nat)
    (h : execFind ms line pos = some (i, k, len)) :
    pos ≤ i ∧ i ≤ line.length ∧ firstAlt ms line i = some (k, len) := by
  obtain ⟨h1, h2, h3⟩ :=
    execFindAux_some ms line (line.length + 1 - pos) pos i k len h
  exact ⟨h1, by omega, h3⟩

theorem execFindAux_none (ms : List MatcherF) (line : List Char) :
    ∀ (rem pos : Nat), execFindAux ms line rem pos = Option.none →
      ∀ i, pos ≤ i → i < pos + rem → firstAlt ms line i = Option.none := by
  intro rem
  induction rem with
  | zero =>
      intro pos _ i h1 h2
      omega
  | succ r ih =>
      intro pos h i h1 h2
      simp only [execFindAux] at h
      cases hf : firstAlt ms line pos with
      | some v =>
          rw [hf] at h
          obtain ⟨k2, len2⟩ := v
          simp at h
      | none =>
          rw [hf] at h
          rcases Nat.eq_or_lt_of_le h1 with rfl | hlt
          · exact hf
          · exact ih (pos + 1) h i (by omega) (by omega)

theorem execFind_none (ms : List MatcherF) (line : List Char) (pos : Nat)
    (h : execFind ms line pos = Option.none) :
    ∀ i, pos ≤ i → i ≤ line.length → firstAlt ms line i = Option.none := by
  intro i h1 h2
  exact execFindAux_none ms line (line.length + 1 - pos) pos h i h1 (by omega)

theorem scanLineFuel_succ (fuel : Nat) (ms : List MatcherF) (line : List Char)
    (pos : Nat) :
    scanLineFuel (fuel + 1) ms line pos
      = match execFind ms line pos with
        | Option.none => some []
        | some (i, k, len) =>
            match scanLineFuel fuel ms line (if len = 0 then i + 1 else i + len) with
            | Option.none => Option.none
            | some rest => some (k :: rest) := rfl

theorem scanLineFuel_isSome (ms : List MatcherF) (line : List Char) :
    ∀ (fuel pos : Nat), line.length + 2 ≤ fuel + pos → 1 ≤ fuel →
      (scanLineFuel fuel ms line pos).isSome = true := by
  intro fuel
  induction fuel with
  | zero =>
      intro pos _ h2
      omega
  | succ fl ih =>
      intro pos h1 _
      rw [scanLineFuel_succ]
      cases he : execFind ms line pos with
      | none => simp
      | some v =>
          obtain ⟨i, k, len⟩ := v
          have hs := execFind_some ms line pos i k len he
          have hfl : 1 ≤ fl := by omega
          have hnext : pos + 1 ≤ (if len = 0 then i + 1 else i + len) := by
            split <;> omega
          have hrec := ih (if len = 0 then i + 1 else i + len) (by omega) hfl
          cases hr : scanLineFuel fl ms line (if len = 0 then i + 1 else i + len) with
          | none =>
              rw [hr] at hrec
              simp at hrec
          | some rest => simp [hr]

theorem scanLineFuel_sound (ms : List MatcherF) (line : List Char) :
    ∀ (fuel pos : Nat) (r : List Nat), scanLineFuel fuel ms line pos = some r →
      ∀ k ∈ r, ∃ i len, i ≤ line.length ∧ firstAlt ms line i = some (k, len) := by
  intro fuel
  induction fuel with
  | zero =>
      intro pos r h
      simp [scanLineFuel] at h
  | succ fl ih =>
      intro pos r h k hk
      rw [scanLineFuel_succ] at h
      cases he : execFind ms line pos with
      | none =>
          rw [he] at h
          simp only [Option.some_inj] at h
          subst h
          simp at hk
      | some v =>
          obtain ⟨i, k2, len⟩ := v
          rw [he] at h
          dsimp only at h
          cases hr : scanLineFuel fl ms line (if len = 0 then i + 1 else i + len) with
          | none =>
              rw [hr] at h
              simp at h
          | some rest =>
              rw [hr] at h
              simp only [Option.some_inj] at h
              subst h
              rcases List.mem_cons.mp hk with rfl | hk2
              · have hs := execFind_some ms line pos i k len he
                exact ⟨i, len, hs.2.1, hs.2.2⟩
              · exact ih _ rest hr k hk2

theorem scanLine_sound (ms : List MatcherF) (line : List Char) (k : Nat)
    (hk : k ∈ scanLine ms line) :
    1 ≤ k ∧ k - 1 < ms.length ∧
      ∃ i m len, i ≤ line.length ∧ ms[k - 1]? = some m ∧ m line i = some len := by
  have hS := scanLineFuel_isSome ms line (line.length + 2) 0 (by omega) (by omega)
  cases hr : scanLineFuel (line.length + 2) ms line 0 with
  | none =>
      rw [hr] at hS
      simp at hS
  | some r =>
      rw [scanLine, hr] at hk
      simp only [Option.getD_some] at hk
      obtain ⟨i, len, hi, hf⟩ := scanLineFuel_sound ms line _ 0 r hr k hk
      obtain ⟨h1, h2, m, h3, h4⟩ := firstAlt_some ms line i k len hf
      exact ⟨h1, h2, i, m, len, hi, h3, h4⟩

theorem scanLine_nonempty (ms : List MatcherF) (line : List Char)
    (h : ∃ (t : Nat) (m : MatcherF), ms[t]? = some m ∧
      ∃ (i len : Nat), i ≤ line.length ∧ m line i = some len) :
    ∃ k rest, scanLine ms line = k :: rest := by
  obtain ⟨t, m, hm, i, len, hi, hmatch⟩ := h
  have hne : execFind ms line 0 ≠ Option.none := by
    intro hcontra
    have hfa := execFind_none ms line 0 hcontra i (by omega) hi
    have hmem : m ∈ ms := by
      rcases List.getElem?_eq_some_iff.mp hm with ⟨hlt, he⟩
      subst he
      exact List.getElem_mem hlt
    have := (firstAltFrom_none ms line i 1).mp hfa m hmem
    rw [this] at hmatch
    simp at hmatch
  have hS := scanLineFuel_isSome ms line (line.length + 2) 0 (by omega) (by omega)
  cases hr : scanLineFuel (line.length + 2) ms line 0 with
  | none =>
      rw [hr] at hS
      simp at hS
  | some r =>
      have hr2 : scanLineFuel (line.length + 1 + 1) ms line 0 = some r := hr
      rw [scanLineFuel_succ] at hr2
      cases he : execFind ms line 0 with
      | none => exact absurd he hne
      | some v =>
          obtain ⟨i2, k2, len2⟩ := v
          rw [he] at hr2
          dsimp only at hr2
          cases hr3 : scanLineFuel (line.length + 1) ms line
              (if len2 = 0 then i2 + 1 else i2 + len2) with
          | none =>
              rw [hr3] at hr2
              simp at hr2
          | some rest =>
              rw [hr3] at hr2
              simp only [Option.some_inj] at hr2
              refine ⟨k2, rest, ?_⟩
              rw [scanLine, hr, Option.getD_some, ← hr2]

/-- C4 (termination under zero-length matches): for every matcher list, line
and start position, `line.length + 2` loop iterations always complete the
per-line exec loop (so `performCombinedAnalysis`, which runs the loop with
exactly that fuel via `scanLine`, always terminates), because every found
match — a zero-length one included — advances the scan position by at least
one. -/
theorem scan_termination (ms : List MatcherF) (line : List Char) (pos fuel : Nat)
    (h1 : line.length + 2 ≤ fuel + pos) (h2 : 1 ≤ fuel) :
    (scanLineFuel fuel ms line pos).isSome = true ∧
    (∀ i k len, execFind ms line pos = some (i, k, len) →
      pos < (if len = 0 then i + 1 else i + len)) := by
  refine ⟨scanLineFuel_isSome ms line fuel pos h1 h2, ?_⟩
  intro i k len h
  have hs := execFind_some ms line pos i k len h
  split <;> omega

/-- Witness for C4: a pattern matching the empty string at every position
still terminates within the fuel bound. -/
theorem scan_termination_witness :
    (scanLineFuel 4 [matchEmptyEverywhere] ['a', 'b'] 0).isSome = true :=
  (scan_termination [matchEmptyEverywhere] ['a', 'b'] 0 4 (by decide) (by decide)).1

theorem execFindAux_nil (line : List Char) :
    ∀ (rem pos : Nat), execFindAux ([] : List MatcherF) line rem pos = Option.none := by
  intro rem
  induction rem with
  | zero => intro pos; rfl
  | succ r ih =>
      intro pos
      simp only [execFindAux, firstAlt, firstAltFrom]
      exact ih (pos + 1)

theorem scanLine_nil (line : List Char) :
    scanLine ([] : List MatcherF) line = [] := by
  have h : execFind ([] : List MatcherF) line 0 = Option.none :=
    execFindAux_nil line (line.length + 1 - 0) 0
  show (scanLineFuel (line.length + 1 + 1) [] line 0).getD [] = []
  rw [scanLineFuel_succ, h]
  rfl

theorem analyzeLoop_nil_matchers :
    ∀ (lines : List (List Char)) (idx : Nat) (st : ResultsMap × WinnersMap),
      analyzeLoop ([] : List MatcherF) ([] : List CombinedInfo) lines idx st = st := by
  intro lines
  induction lines with
  | nil => intro idx st; rfl
  | cons line rest ih =>
      intro idx st
      simp only [analyzeLoop, scanLine_nil]
      have hp : processLine ([] : List CombinedInfo) idx [] st.1 st.2 = (st.1, st.2) := rfl
      rw [hp]
      exact ih (idx + 1) (st.1, st.2)

/-- C7 (empty filter set is uniform): `buildCombinedRegex` on an empty filter
list yields a matcher that matches nothing anywhere and an empty index map,
and `performCombinedAnalysis` with that matcher terminates on any text with
an empty per-filter result map and an empty winner map. -/
theorem empty_filters_uniform :
    buildCombinedRegex ([] : List Filter) = ([], []) ∧
    (∀ (line : List Char) (pos : Nat),
      execFind (buildCombinedRegex ([] : List Filter)).1 line pos = Option.none) ∧
    (∀ text : List Char,
      performCombinedAnalysis text (buildCombinedRegex ([] : List Filter)).1
          (buildCombinedRegex ([] : List Filter)).2
        = (fun _ => Option.none, fun _ => Option.none)) := by
  refine ⟨rfl, ?_, ?_⟩
  · intro line pos
    exact execFindAux_nil line (line.length + 1 - pos) pos
  · intro text
    show analyzeLoop [] [] (splitLines text) 0 (initResults [], fun _ => Option.none)
      = (fun _ => Option.none, fun _ => Option.none)
    rw [analyzeLoop_nil_matchers]
    rfl

/-! ## Result-map lemmas: what the classifier records -/

theorem mem_insertNat (n m : Nat) (s : List Nat) :
    n ∈ insertNat m s ↔ n ∈ s ∨ n = m := by
  simp only [insertNat]
  split
  · rename_i hm
    constructor
    · exact Or.inl
    · rintro (h | rfl)
      · exact h
      · exact hm
  · simp [List.mem_append]

theorem lineObserves_cons (fmap : List CombinedInfo) (k : Nat) (rest : List Nat)
    (fid : String) :
    lineObserves fmap (k :: rest) fid ↔
      (∃ info, getInfo fmap k = some info ∧ info.filterId = fid) ∨
        lineObserves fmap rest fid := by
  simp only [lineObserves, List.mem_cons]
  constructor
  · rintro ⟨k2, (rfl | hk2), info, h1, h2⟩
    · exact Or.inl ⟨info, h1, h2⟩
    · exact Or.inr ⟨k2, hk2, info, h1, h2⟩
  · rintro (⟨info, h1, h2⟩ | ⟨k2, hk2, info, h1, h2⟩)
    · exact ⟨k, Or.inl rfl, info, h1, h2⟩
    · exact ⟨k2, Or.inr hk2, info, h1, h2⟩

theorem foldl_stepObs_snd (fmap : List CombinedInfo) (lineIdx : Nat) :
    ∀ (obs : List Nat) (res : ResultsMap) (b : Option Nat),
      (obs.foldl (stepObs fmap lineIdx) (res, b)).2
        = obs.foldl (bestStep fmap) b := by
  intro obs
  induction obs with
  | nil =>
      intro res b
      rfl
  | cons k rest ih =>
      intro res b
      simp only [List.foldl_cons]
      have hstep : stepObs fmap lineIdx (res, b) k
          = ((stepObs fmap lineIdx (res, b) k).1, bestStep fmap b k) := by
        simp only [stepObs, bestStep]
        cases getInfo fmap k <;> simp
      rw [hstep]
      exact ih _ _

theorem foldl_stepObs_fst (fmap : List CombinedInfo) (lineIdx : Nat) (fid : String) :
    ∀ (obs : List Nat) (res : ResultsMap) (b : Option Nat),
      (res fid = Option.none →
          ((obs.foldl (stepObs fmap lineIdx) (res, b)).1) fid = Option.none) ∧
        (∀ s e, res fid = some (s, e) →
          ∃ s2, ((obs.foldl (stepObs fmap lineIdx) (res, b)).1) fid = some (s2, e) ∧
            ∀ n, n ∈ s2 ↔ (n ∈ s ∨ (n = lineIdx ∧ lineObserves fmap obs fid))) := by
  intro obs
  induction obs with
  | nil =>
      intro res b
      refine ⟨fun h => h, fun s e h => ⟨s, h, fun n => ?_⟩⟩
      simp [lineObserves]
  | cons k rest ih =>
      intro res b
      simp only [List.foldl_cons]
      cases hg : getInfo fmap k with
      | none =>
          have hstep : stepObs fmap lineIdx (res, b) k = (res, b) := by
            simp [stepObs, hg]
          rw [hstep]
          obtain ⟨ih1, ih2⟩ := ih res b
          refine ⟨ih1, fun s e h => ?_⟩
          obtain ⟨s2, hs2, hmem⟩ := ih2 s e h
          refine ⟨s2, hs2, fun n => ?_⟩
          rw [hmem n, lineObserves_cons]
          simp [hg]
      | some info =>
          have hstep : stepObs fmap lineIdx (res, b) k
              = (addLine res info.filterId lineIdx, updateBest b k) := by
            simp [stepObs, hg]
          rw [hstep]
          by_cases hfid : fid = info.filterId
          · subst hfid
            have hobs : lineObserves fmap (k :: rest) info.filterId :=
              ⟨k, by simp, info, hg, rfl⟩
            obtain ⟨ih1, ih2⟩ := ih (addLine res info.filterId lineIdx) (updateBest b k)
            cases hres : res info.filterId with
            | none =>
                have h2 : (addLine res info.filterId lineIdx) info.filterId
                    = Option.none := by
                  simp [addLine, hres]
                refine ⟨fun _ => ih1 h2, fun s e h => ?_⟩
                exact absurd h (by simp)
            | some p =>
                obtain ⟨s0, e0⟩ := p
                have h2 : (addLine res info.filterId lineIdx) info.filterId
                    = some (insertNat lineIdx s0, e0) := by
                  simp [addLine, hres]
                refine ⟨fun hc => absurd hc (by simp), fun s e h => ?_⟩
                injection h with h
                injection h with h1 h2
                subst h1
                subst h2
                obtain ⟨s2, hs2, hmem⟩ := ih2 (insertNat lineIdx s0) e0 h2
                refine ⟨s2, hs2, fun n => ?_⟩
                rw [hmem n, mem_insertNat]
                constructor
                · rintro (((hns | rfl) | ⟨rfl, _⟩))
                  · exact Or.inl hns
                  · exact Or.inr ⟨rfl, hobs⟩
                  · exact Or.inr ⟨rfl, hobs⟩
                · rintro (hns | ⟨rfl, _⟩)
                  · exact Or.inl (Or.inl hns)
                  · exact Or.inl (Or.inr rfl)
          · have h2 : (addLine res info.filterId lineIdx) fid = res fid := by
              simp [addLine, hfid]
            obtain ⟨ih1, ih2⟩ := ih (addLine res info.filterId lineIdx) (updateBest b k)
            refine ⟨fun h => ih1 (h2.trans h), fun s e h => ?_⟩
            obtain ⟨s2, hs2, hmem⟩ := ih2 s e (h2.trans h)
            refine ⟨s2, hs2, fun n => ?_⟩
            rw [hmem n, lineObserves_cons]
            have hne : ¬(info.filterId = fid) := fun hh => hfid hh.symm
            simp [hg, hne]

theorem updateBest_spec (b : Option Nat) (k : Nat) :
    ∃ v, updateBest b k = some v ∧ v ≤ k ∧ ∀ b0, b = some b0 → v ≤ b0 := by
  cases b with
  | none => exact ⟨k, rfl, le_refl k, by simp⟩
  | some b0 =>
      simp only [updateBest]
      split
      · rename_i hlt
        refine ⟨k, rfl, le_refl k, ?_⟩
        intro x hx
        injection hx with hx
        omega
      · rename_i hge
        refine ⟨b0, rfl, by omega, ?_⟩
        intro x hx
        injection hx with hx
        omega

theorem foldl_bestStep_mem (fmap : List CombinedInfo) :
    ∀ (obs : List Nat) (b : Option Nat) (m : Nat),
      obs.foldl (bestStep fmap) b = some m →
      b = some m ∨ (m ∈ obs ∧ (getInfo fmap m).isSome = true) := by
  intro obs
  induction obs with
  | nil =>
      intro b m h
      exact Or.inl h
  | cons k rest ih =>
      intro b m h
      simp only [List.foldl_cons] at h
      rcases ih (bestStep fmap b k) m h with hb | ⟨hm, hs⟩
      · simp only [bestStep] at hb
        by_cases hg : (getInfo fmap k).isSome = true
        · rw [if_pos hg] at hb
          cases b with
          | none =>
              simp only [updateBest, Option.some_inj] at hb
              subst hb
              exact Or.inr ⟨by simp, hg⟩
          | some b0 =>
              simp only [updateBest] at hb
              split at hb
              · injection hb with hb
                subst hb
                exact Or.inr ⟨by simp, hg⟩
              · injection hb with hb
                exact Or.inl (by rw [hb])
        · rw [if_neg hg] at hb
          exact Or.inl hb
      · exact Or.inr ⟨by simp [hm], hs⟩

theorem foldl_bestStep_le (fmap : List CombinedInfo) :
    ∀ (obs : List Nat) (b : Option Nat) (m : Nat),
      obs.foldl (bestStep fmap) b = some m →
      (∀ k ∈ obs, (getInfo fmap k).isSome = true → m ≤ k) ∧
        (∀ b0, b = some b0 → m ≤ b0) := by
  intro obs
  induction obs with
  | nil =>
      intro b m h
      refine ⟨by simp, fun b0 hb => ?_⟩
      rw [hb] at h
      injection h with h
      omega
  | cons k rest ih =>
      intro b m h
      simp only [List.foldl_cons] at h
      obtain ⟨ih1, ih2⟩ := ih (bestStep fmap b k) m h
      constructor
      · intro k2 hk2 hs
        rcases List.mem_cons.mp hk2 with rfl | hk2r
        · simp only [bestStep, if_pos hs] at ih2
          obtain ⟨v, hv, hvk, _⟩ := updateBest_spec b k2
          exact le_trans (ih2 v hv) hvk
        · exact ih1 k2 hk2r hs
      · intro b0 hb
        subst hb
        by_cases hg : (getInfo fmap k).isSome = true
        · simp only [bestStep, if_pos hg] at ih2
          obtain ⟨v, hv, _, hvb⟩ := updateBest_spec (some b0) k
          exact le_trans (ih2 v hv) (hvb b0 rfl)
        · simp only [bestStep, if_neg hg] at ih2
          exact ih2 b0 rfl

theorem processLine_fst (fmap : List CombinedInfo) (lineIdx : Nat) (obs : List Nat)
    (res : ResultsMap) (win : WinnersMap) :
    (processLine fmap lineIdx obs res win).1
      = (obs.foldl (stepObs fmap lineIdx) (res, Option.none)).1 := by
  simp only [processLine]
  split
  · split <;> rfl
  · rfl

theorem processLine_snd (fmap : List CombinedInfo) (lineIdx : Nat) (obs : List Nat)
    (res : ResultsMap) (win : WinnersMap) :
    (processLine fmap lineIdx obs res win).2
      = winUpdate win lineIdx (lineWinner fmap obs) := by
  simp only [processLine, lineWinner, lineBest]
  rw [foldl_stepObs_snd]
  cases hb : obs.foldl (bestStep fmap) Option.none with
  | none => rfl
  | some b =>
      dsimp only
      cases hg : getInfo fmap b with
      | none => rfl
      | some w => rfl

theorem init_preserve (fid : String) :
    ∀ (fmap : List CombinedInfo) (res : ResultsMap),
      (∀ info ∈ fmap, info.filterId ≠ fid) →
      (fmap.foldl initStep res) fid = res fid := by
  intro fmap
  induction fmap with
  | nil =>
      intro res _
      rfl
  | cons info rest ih =>
      intro res h
      simp only [List.foldl_cons]
      rw [ih (initStep res info) (fun i hi => h i (by simp [hi]))]
      have hne : ¬(fid = info.filterId) := fun e => (h info (by simp)) e.symm
      simp [initStep, hne]

theorem init_mem (fid : String) :
    ∀ (fmap : List CombinedInfo) (res : ResultsMap),
      (∃ info ∈ fmap, info.filterId = fid) →
      ∃ e, (fmap.foldl initStep res) fid = some ([], e) := by
  intro fmap
  induction fmap with
  | nil =>
      intro res h
      simp at h
  | cons info rest ih =>
      intro res h
      simp only [List.foldl_cons]
      by_cases hrest : ∃ info2 ∈ rest, info2.filterId = fid
      · exact ih (initStep res info) hrest
      · have hinfo : info.filterId = fid := by
          rcases h with ⟨i2, hi2, he⟩
          rcases List.mem_cons.mp hi2 with rfl | hmem
          · exact he
          · exact absurd ⟨i2, hmem, he⟩ hrest
        push_neg at hrest
        rw [init_preserve fid rest (initStep res info) hrest]
        refine ⟨info.isExclude, ?_⟩
        simp [initStep, hinfo]

theorem linesObserve_cons (ms : List MatcherF) (fmap : List CombinedInfo)
    (line : List Char) (rest : List (List Char)) (idx n : Nat) (fid : String) :
    linesObserve ms fmap (line :: rest) idx n fid ↔
      (n = idx ∧ lineObserves fmap (scanLine ms line) fid) ∨
        linesObserve ms fmap rest (idx + 1) n fid := by
  simp only [linesObserve]
  constructor
  · rintro ⟨j, l, hl, rfl, hobs⟩
    cases j with
    | zero =>
        simp only [List.getElem?_cons_zero, Option.some_inj] at hl
        subst hl
        exact Or.inl ⟨by omega, hobs⟩
    | succ j2 =>
        simp only [List.getElem?_cons_succ] at hl
        exact Or.inr ⟨j2, l, hl, by omega, hobs⟩
  · rintro (⟨rfl, hobs⟩ | ⟨j2, l, hl, rfl, hobs⟩)
    · exact ⟨0, line, by simp, by omega, hobs⟩
    · exact ⟨j2 + 1, l, by simpa using hl, by omega, hobs⟩

theorem analyzeLoop_fst (ms : List MatcherF) (fmap : List CombinedInfo) (fid : String) :
    ∀ (lines : List (List Char)) (idx : Nat) (st : ResultsMap × WinnersMap),
      (st.1 fid = Option.none →
          (analyzeLoop ms fmap lines idx st).1 fid = Option.none) ∧
        (∀ s e, st.1 fid = some (s, e) →
          ∃ s2, (analyzeLoop ms fmap lines idx st).1 fid = some (s2, e) ∧
            ∀ n, n ∈ s2 ↔ (n ∈ s ∨ linesObserve ms fmap lines idx n fid)) := by
  intro lines
  induction lines with
  | nil =>
      intro idx st
      refine ⟨fun h => h, fun s e h => ⟨s, h, fun n => ?_⟩⟩
      simp [linesObserve]
  | cons line rest ih =>
      intro idx st
      simp only [analyzeLoop]
      obtain ⟨ihp1, ihp2⟩ :=
        foldl_stepObs_fst fmap idx fid (scanLine ms line) st.1 Option.none
      obtain ⟨ihl1, ihl2⟩ :=
        ih (idx + 1) (processLine fmap idx (scanLine ms line) st.1 st.2)
      have hfst := processLine_fst fmap idx (scanLine ms line) st.1 st.2
      constructor
      · intro h
        exact ihl1 (by rw [hfst]; exact ihp1 h)
      · intro s e h
        obtain ⟨s1, hs1, hmem1⟩ := ihp2 s e h
        obtain ⟨s2, hs2, hmem2⟩ := ihl2 s1 e (by rw [hfst]; exact hs1)
        refine ⟨s2, hs2, fun n => ?_⟩
        rw [hmem2 n, hmem1 n, linesObserve_cons]
        tauto

theorem analyzeLoop_snd_fwd (ms : List MatcherF) (fmap : List CombinedInfo) :
    ∀ (lines : List (List Char)) (idx : Nat) (st : ResultsMap × WinnersMap)
      (n : Nat) (fid : String),
      (analyzeLoop ms fmap lines idx st).2 n = some fid →
      st.2 n = some fid ∨ ∃ j line, lines[j]? = some line ∧ n = idx + j ∧
        lineWinner fmap (scanLine ms line) = some fid := by
  intro lines
  induction lines with
  | nil =>
      intro idx st n fid h
      exact Or.inl h
  | cons line rest ih =>
      intro idx st n fid h
      simp only [analyzeLoop] at h
      rcases ih (idx + 1) _ n fid h with hw | ⟨j, l, hl, hn, hwin⟩
      · rw [processLine_snd] at hw
        cases hlw : lineWinner fmap (scanLine ms line) with
        | none =>
            rw [hlw] at hw
            exact Or.inl hw
        | some w =>
            rw [hlw] at hw
            simp only [winUpdate] at hw
            by_cases hni : n = idx
            · rw [if_pos hni] at hw
              injection hw with hw
              exact Or.inr ⟨0, line, by simp, by omega, by rw [hlw, hw]⟩
            · rw [if_neg hni] at hw
              exact Or.inl hw
      · exact Or.inr ⟨j + 1, l, by simpa using hl, by omega, hwin⟩

theorem winners_line (text : List Char) (ms : List MatcherF)
    (fmap : List CombinedInfo) (n : Nat) (fid : String)
    (h : (performCombinedAnalysis text ms fmap).2 n = some fid) :
    ∃ line, (splitLines text)[n]? = some line ∧
      lineWinner fmap (scanLine ms line) = some fid := by
  simp only [performCombinedAnalysis] at h
  rcases analyzeLoop_snd_fwd ms fmap (splitLines text) 0
      (initResults fmap, fun _ => Option.none) n fid h with hw | ⟨j, l, hl, hn, hwin⟩
  · cases hw
  · have hj : j = n := by omega
    subst hj
    exact ⟨l, hl, hwin⟩

/-- C9 (winner-membership invariant): whenever `performCombinedAnalysis`
records a priority winner for a line, that line number is also a member of
the winning filter's matched-line set in `filterResults`. -/
theorem winner_membership (text : List Char) (ms : List MatcherF)
    (fmap : List CombinedInfo) (n : Nat) (fid : String)
    (h : (performCombinedAnalysis text ms fmap).2 n = some fid) :
    ∃ s e, (performCombinedAnalysis text ms fmap).1 fid = some (s, e) ∧ n ∈ s := by
  obtain ⟨line, hline, hwin⟩ := winners_line text ms fmap n fid h
  simp only [lineWinner] at hwin
  cases hb : lineBest fmap (scanLine ms line) with
  | none =>
      rw [hb] at hwin
      simp at hwin
  | some b =>
      rw [hb] at hwin
      dsimp only at hwin
      cases hg : getInfo fmap b with
      | none =>
          rw [hg] at hwin
          simp at hwin
      | some info =>
          rw [hg] at hwin
          have hfid : info.filterId = fid := by
            simpa using hwin
          have hbmem := foldl_bestStep_mem fmap (scanLine ms line) Option.none b
            (by simpa [lineBest] using hb)
          rcases hbmem with hcontra | ⟨hmem, _⟩
          · cases hcontra
          · have hobs : lineObserves fmap (scanLine ms line) fid :=
              ⟨b, hmem, info, hg, hfid⟩
            have hinfomem : info ∈ fmap := by
              cases b with
              | zero => simp [getInfo] at hg
              | succ b2 =>
                  simp only [getInfo] at hg
                  rcases List.getElem?_eq_some_iff.mp hg with ⟨hlt, he⟩
                  rw [← he]
                  exact List.getElem_mem hlt
            obtain ⟨e, he⟩ := init_mem fid fmap (fun _ => Option.none)
              ⟨info, hinfomem, hfid⟩
            obtain ⟨_, ihl2⟩ := analyzeLoop_fst ms fmap fid (splitLines text) 0
              (initResults fmap, fun _ => Option.none)
            obtain ⟨s2, hs2, hmem2⟩ := ihl2 [] e he
            refine ⟨s2, e, ?_, ?_⟩
            · simpa [performCombinedAnalysis] using hs2
            · rw [hmem2 n]
              exact Or.inr ⟨n, line, hline, by omega, hobs⟩

/-- Witness for C9 at a single concrete filter and a one-line text. -/
theorem winner_membership_witness :
    ∃ s e,
      (performCombinedAnalysis ['a']
          (buildCombinedRegex [mkFilter "A" (litMatcher ['a']) 50]).1
          (buildCombinedRegex [mkFilter "A" (litMatcher ['a']) 50]).2).1 "A"
        = some (s, e) ∧ 0 ∈ s :=
  winner_membership ['a']
    (buildCombinedRegex [mkFilter "A" (litMatcher ['a']) 50]).1
    (buildCombinedRegex [mkFilter "A" (litMatcher ['a']) 50]).2 0 "A" (by decide)

/-! ## Claim C1: single-scan equivalence -/

theorem init_shape (fid : String) :
    ∀ (fmap : List CombinedInfo) (res : ResultsMap),
      (res fid = Option.none ∨ ∃ e, res fid = some ([], e)) →
      ((fmap.foldl initStep res) fid = Option.none ∨
        ∃ e, (fmap.foldl initStep res) fid = some ([], e)) := by
  intro fmap
  induction fmap with
  | nil =>
      intro res h
      exact h
  | cons info rest ih =>
      intro res h
      simp only [List.foldl_cons]
      refine ih (initStep res info) ?_
      by_cases he : fid = info.filterId
      · exact Or.inr ⟨info.isExclude, by simp [initStep, he]⟩
      · rcases h with h | ⟨e, h⟩
        · exact Or.inl (by simp [initStep, he, h])
        · exact Or.inr ⟨e, by simp [initStep, he, h]⟩

theorem buildCombinedRegex_ne (filters : List Filter)
    (hne : ¬(filters.length = 0)) :
    buildCombinedRegex filters
      = ((sortStableDesc filters).map (fun f => f.regex),
         (sortStableDesc filters).map
           (fun f => (⟨f.id, f.focusAction = FocusAction.excluded⟩ : CombinedInfo))) := by
  simp [buildCombinedRegex, hne]

theorem sortedInfo_lookup (sorted : List Filter) (k : Nat) (info : CombinedInfo)
    (h : getInfo
        (sorted.map
          (fun f => (⟨f.id, f.focusAction = FocusAction.excluded⟩ : CombinedInfo))) k
      = some info) :
    ∃ f, sorted[k - 1]? = some f ∧ f.id = info.filterId := by
  cases k with
  | zero => simp [getInfo] at h
  | succ j =>
      simp only [getInfo, List.getElem?_map] at h
      cases hf : sorted[j]? with
      | none =>
          rw [hf] at h
          simp at h
      | some f =>
          rw [hf] at h
          simp only [Option.map_some'] at h
          injection h with h
          refine ⟨f, by simpa using hf, ?_⟩
          rw [← h]

/-- C1 counterexample: filters `A = /ab/` and `B = /b/`, both priority 50, in
input order `[A, B]`, on the one-line text `"ab"`.  The single scan matches
`A` at position 0, consuming both characters, and resumes past the `"b"`, so
`B` is never captured: `B`'s per-filter result set is empty even though `/b/`
tested alone matches the line — refuting the claimed per-filter equality. -/
theorem combined_per_filter_equiv_cex :
    (performCombinedAnalysis ['a', 'b']
        (buildCombinedRegex [cexFilterA, cexFilterB]).1
        (buildCombinedRegex [cexFilterA, cexFilterB]).2).1 "B"
      = some ([], false) ∧
    regexTest cexFilterB.regex ['a', 'b'] = true ∧
    splitLines ['a', 'b'] = [['a', 'b']] :=
  ⟨by decide, by decide, by decide⟩

theorem combined_union_sound_aux (sorted : List Filter) (text : List Char)
    (n : Nat) (fid : String) (s : List Nat) (e : Bool)
    (hres : (performCombinedAnalysis text (sorted.map (fun f => f.regex))
        (sorted.map
          (fun f => (⟨f.id, f.focusAction = FocusAction.excluded⟩ : CombinedInfo)))).1 fid
      = some (s, e))
    (hn : n ∈ s) :
    ∃ f line, f ∈ sorted ∧ f.id = fid ∧ (splitLines text)[n]? = some line ∧
      regexTest f.regex line = true := by
  simp only [performCombinedAnalysis] at hres
  obtain ⟨ih1, ih2⟩ := analyzeLoop_fst (sorted.map (fun f => f.regex))
    (sorted.map (fun f => (⟨f.id, f.focusAction = FocusAction.excluded⟩ : CombinedInfo)))
    fid (splitLines text) 0
    (initResults (sorted.map
      (fun f => (⟨f.id, f.focusAction = FocusAction.excluded⟩ : CombinedInfo))),
      fun _ => Option.none)
  rcases init_shape fid
      (sorted.map (fun f => (⟨f.id, f.focusAction = FocusAction.excluded⟩ : CombinedInfo)))
      (fun _ => Option.none) (Or.inl rfl) with hinit | ⟨e0, hinit⟩
  · rw [ih1 hinit] at hres
    cases hres
  · obtain ⟨s2, hfinal, hmem⟩ := ih2 [] e0 hinit
    rw [hfinal] at hres
    injection hres with hres
    injection hres with hres1 hres2
    subst hres1
    have hn2 := (hmem n).mp hn
    rcases hn2 with hcontra | ⟨j, line, hlj, hnj, hobs⟩
    · cases hcontra
    · have hj : j = n := by omega
      subst hj
      obtain ⟨k, hkobs, info, hginfo, hfid⟩ := hobs
      obtain ⟨f, hfk, hfid2⟩ := sortedInfo_lookup sorted k info hginfo
      obtain ⟨hk1, hk2, i, m, len, hi, hmk, hmatch⟩ :=
        scanLine_sound _ line k hkobs
      rw [List.getElem?_map, hfk, Option.map_some'] at hmk
      injection hmk with hmk
      refine ⟨f, line, ?_, hfid2.trans hfid, hlj, ?_⟩
      · rcases List.getElem?_eq_some_iff.mp hfk with ⟨hlt, he⟩
        rw [← he]
        exact List.getElem_mem hlt
      · simp only [regexTest, List.any_eq_true, List.mem_range]
        refine ⟨i, by omega, ?_⟩
        rw [hmk, hmatch]
        rfl

theorem combined_union_complete_aux (sorted : List Filter) (text : List Char)
    (n : Nat) (line : List Char) (f : Filter)
    (hline : (splitLines text)[n]? = some line) (hfs : f ∈ sorted)
    (hmatch : regexTest f.regex line = true) :
    ∃ fid s e,
      (performCombinedAnalysis text (sorted.map (fun f => f.regex))
          (sorted.map
            (fun f => (⟨f.id, f.focusAction = FocusAction.excluded⟩ : CombinedInfo)))).1 fid
        = some (s, e) ∧ n ∈ s := by
  obtain ⟨t, hft⟩ := List.mem_iff_getElem?.mp hfs
  simp only [regexTest, List.any_eq_true, List.mem_range] at hmatch
  obtain ⟨i, hiR, hisome⟩ := hmatch
  obtain ⟨len, hlen2⟩ := Option.isSome_iff_exists.mp hisome
  obtain ⟨k, restk, hscan⟩ := scanLine_nonempty
    (sorted.map (fun f => f.regex)) line
    ⟨t, f.regex, by rw [List.getElem?_map, hft, Option.map_some'],
      i, len, by omega, hlen2⟩
  have hkmem : k ∈ scanLine (sorted.map (fun f => f.regex)) line := by
    rw [hscan]
    simp
  obtain ⟨hk1, hk2, _⟩ := scanLine_sound _ line k hkmem
  have hk2m : k - 1 < (sorted.map
      (fun f => (⟨f.id, f.focusAction = FocusAction.excluded⟩ : CombinedInfo))).length := by
    rw [List.length_map]
    rw [List.length_map] at hk2
    exact hk2
  obtain ⟨info, hinfo⟩ : ∃ info, (sorted.map
      (fun f => (⟨f.id, f.focusAction = FocusAction.excluded⟩ : CombinedInfo)))[k - 1]?
      = some info :=
    ⟨_, List.getElem?_eq_getElem hk2m⟩
  have hgi : getInfo (sorted.map
      (fun f => (⟨f.id, f.focusAction = FocusAction.excluded⟩ : CombinedInfo))) k
      = some info := by
    have hk : k = (k - 1) + 1 := by omega
    rw [hk]
    exact hinfo
  have hobs : lineObserves
      (sorted.map (fun f => (⟨f.id, f.focusAction = FocusAction.excluded⟩ : CombinedInfo)))
      (scanLine (sorted.map (fun f => f.regex)) line) info.filterId :=
    ⟨k, hkmem, info, hgi, rfl⟩
  have hinfomem : info ∈ sorted.map
      (fun f => (⟨f.id, f.focusAction = FocusAction.excluded⟩ : CombinedInfo)) := by
    rcases List.getElem?_eq_some_iff.mp hinfo with ⟨hlt, he⟩
    rw [← he]
    exact List.getElem_mem hlt
  obtain ⟨e, he⟩ := init_mem info.filterId
    (sorted.map (fun f => (⟨f.id, f.focusAction = FocusAction.excluded⟩ : CombinedInfo)))
    (fun _ => Option.none) ⟨info, hinfomem, rfl⟩
  obtain ⟨_, ihl2⟩ := analyzeLoop_fst (sorted.map (fun f => f.regex))
    (sorted.map (fun f => (⟨f.id, f.focusAction = FocusAction.excluded⟩ : CombinedInfo)))
    info.filterId (splitLines text) 0
    (initResults (sorted.map
      (fun f => (⟨f.id, f.focusAction = FocusAction.excluded⟩ : CombinedInfo))),
      fun _ => Option.none)
  obtain ⟨s2, hfinal, hmem⟩ := ihl2 [] e he
  refine ⟨info.filterId, s2, e, ?_, ?_⟩
  · simp only [performCombinedAnalysis]
    exact hfinal
  · rw [hmem n]
    exact Or.inr ⟨n, line, hline, by omega, hobs⟩

/-- C1 (amended): each filter's combined-scan result set is sound — it
contains only lines whose text the filter's own pattern matches — and the
scan is complete at the level of the union: some filter's result set contains
a line exactly when at least one filter's pattern matches that line.  (The
per-filter equality of the original claim fails when one filter's only match
is consumed by an overlapping match found earlier in the scan, see
`combined_per_filter_equiv_cex`.) -/
theorem combined_scan_union_equiv (filters : List Filter) (text : List Char)
    (n : Nat) :
    (∀ fid s e,
      (performCombinedAnalysis text (buildCombinedRegex filters).1
          (buildCombinedRegex filters).2).1 fid = some (s, e) → n ∈ s →
        ∃ f line, f ∈ filters ∧ f.id = fid ∧ (splitLines text)[n]? = some line ∧
          regexTest f.regex line = true) ∧
    (∀ line f, (splitLines text)[n]? = some line → f ∈ filters →
      regexTest f.regex line = true →
        ∃ fid s e,
          (performCombinedAnalysis text (buildCombinedRegex filters).1
              (buildCombinedRegex filters).2).1 fid = some (s, e) ∧ n ∈ s) := by
  by_cases hlen : filters.length = 0
  · have hnil : filters = [] := List.length_eq_zero.mp hlen
    subst hnil
    constructor
    · intro fid s e hres _
      simp only [performCombinedAnalysis] at hres
      have hfin := (analyzeLoop_fst (buildCombinedRegex ([] : List Filter)).1
        (buildCombinedRegex ([] : List Filter)).2 fid (splitLines text) 0
        (initResults (buildCombinedRegex ([] : List Filter)).2,
          fun _ => Option.none)).1 rfl
      rw [hfin] at hres
      cases hres
    · intro line f _ hf _
      simp at hf
  · have hbc := buildCombinedRegex_ne filters hlen
    constructor
    · intro fid s e hres hn
      rw [hbc] at hres
      obtain ⟨f, line, hfs, hfid, hline, hm⟩ :=
        combined_union_sound_aux (sortStableDesc filters) text n fid s e hres hn
      exact ⟨f, line, (sortStableDesc_perm filters).mem_iff.mp hfs, hfid, hline, hm⟩
    · intro line f hline hf hmatch
      rw [hbc]
      exact combined_union_complete_aux (sortStableDesc filters) text n line f
        hline ((sortStableDesc_perm filters).mem_iff.mpr hf) hmatch

/-- Witness for C1 (amended) at the counterexample instance: filter `A`'s
recorded line 0 is indeed matched by `A`'s own pattern. -/
theorem combined_scan_union_equiv_witness :
    ∃ f line, f ∈ [cexFilterA, cexFilterB] ∧ f.id = "A" ∧
      (splitLines ['a', 'b'])[0]? = some line ∧ regexTest f.regex line = true :=
  (combined_scan_union_equiv [cexFilterA, cexFilterB] ['a', 'b'] 0).1 "A" [0] false
    (by decide) (by decide)

/-! ## Claim C2: priority-winner determinism -/

theorem lineWinner_min (fmap : List CombinedInfo) (obs : List Nat) (fid : String)
    (hwin : lineWinner fmap obs = some fid) :
    ∃ b, b ∈ obs ∧ (∃ info, getInfo fmap b = some info ∧ info.filterId = fid) ∧
      ∀ k ∈ obs, (getInfo fmap k).isSome = true → b ≤ k := by
  simp only [lineWinner] at hwin
  cases hb : lineBest fmap obs with
  | none =>
      rw [hb] at hwin
      simp at hwin
  | some b =>
      rw [hb] at hwin
      dsimp only at hwin
      cases hg : getInfo fmap b with
      | none =>
          rw [hg] at hwin
          simp at hwin
      | some info =>
          rw [hg] at hwin
          have hfid : info.filterId = fid := by simpa using hwin
          rcases foldl_bestStep_mem fmap obs Option.none b
              (by simpa [lineBest] using hb) with hc | ⟨hbmem, _⟩
          · cases hc
          · refine ⟨b, hbmem, ⟨info, hg, hfid⟩, ?_⟩
            exact (foldl_bestStep_le fmap obs Option.none b
              (by simpa [lineBest] using hb)).1

/-- C2 counterexample: `A = /ba/` with priority 100 and `B = /ab/` with
priority 50, on the one-line text `"aba"`.  Both patterns, tested alone,
match line 0, but the scan finds `B`'s match first (at position 0) and
resumes past position 1, skipping `A`'s only match, so the recorded winner is
`B` — not the matching filter with the strictly highest priority. -/
theorem priority_winner_cex :
    (performCombinedAnalysis ['a', 'b', 'a']
        (buildCombinedRegex [cexFilterC, cexFilterD]).1
        (buildCombinedRegex [cexFilterC, cexFilterD]).2).2 0 = some "B" ∧
    regexTest cexFilterC.regex ['a', 'b', 'a'] = true ∧
    regexTest cexFilterD.regex ['a', 'b', 'a'] = true ∧
    cexFilterD.priority < cexFilterC.priority ∧
    cexFilterC.id = "A" :=
  ⟨by decide, by decide, by decide, by decide, rfl⟩

/-- C2 (amended): on each line where the combined scan observed at least one
alternative, the recorded winner is, among the filters whose alternative was
observed (captured) on that line, the one with the strictly highest priority;
when observed filters share the top priority the winner is the one that
appears earliest in the input order supplied to `buildCombinedRegex`
(descending stable sort, winner = lowest observed alternative index).  The
original claim, read with "matched" as "the filter's pattern, tested alone,
matches the line", fails: see `priority_winner_cex`. -/
theorem priority_winner_observed (filters : List Filter) (text : List Char)
    (n : Nat) (fid : String)
    (h : (performCombinedAnalysis text (buildCombinedRegex filters).1
        (buildCombinedRegex filters).2).2 n = some fid) :
    ∃ w, w ∈ observedFilters filters text n ∧ w.id = fid ∧
      ∀ g ∈ observedFilters filters text n,
        g.priority < w.priority ∨
          (g.priority = w.priority ∧ (w = g ∨ List.Sublist [w, g] filters)) := by
  obtain ⟨line, hline, hwin⟩ := winners_line text _ _ n fid h
  by_cases hlen : filters.length = 0
  · exfalso
    have hnil : filters = [] := List.length_eq_zero.mp hlen
    subst hnil
    obtain ⟨b, _, ⟨info, hg, _⟩, _⟩ := lineWinner_min _ _ fid hwin
    cases b with
    | zero => simp [getInfo] at hg
    | succ j => simp [buildCombinedRegex, getInfo] at hg
  · have hbc := buildCombinedRegex_ne filters hlen
    rw [hbc] at hwin
    obtain ⟨b, hbmem, ⟨infoW, hgW, hfidW⟩, hmin⟩ := lineWinner_min _ _ fid hwin
    obtain ⟨w, hwk, hwid⟩ := sortedInfo_lookup (sortStableDesc filters) b infoW hgW
    have hobsEq : observedFilters filters text n
        = (scanLine ((sortStableDesc filters).map (fun f => f.regex)) line).filterMap
            (fun k => (sortStableDesc filters)[k - 1]?) := by
      simp only [observedFilters, hline, hbc]
    have hb1 : 1 ≤ b := (scanLine_sound _ line b hbmem).1
    refine ⟨w, ?_, hwid.trans hfidW, ?_⟩
    · rw [hobsEq]
      exact List.mem_filterMap.mpr ⟨b, hbmem, hwk⟩
    · intro g hg
      rw [hobsEq] at hg
      obtain ⟨kg, hkgmem, hgk⟩ := List.mem_filterMap.mp hg
      have hkg1 : 1 ≤ kg := (scanLine_sound _ line kg hkgmem).1
      have hkglt : kg - 1 < (sortStableDesc filters).length :=
        (List.getElem?_eq_some_iff.mp hgk).1
      have hkgsome : (getInfo ((sortStableDesc filters).map
          (fun f => (⟨f.id, f.focusAction = FocusAction.excluded⟩ : CombinedInfo))) kg).isSome
          = true := by
        have hk : kg = (kg - 1) + 1 := by omega
        rw [hk]
        simp only [getInfo, List.getElem?_map, hgk, Option.map_some']
        rfl
      have hble : b ≤ kg := hmin kg hkgmem hkgsome
      rcases Nat.eq_or_lt_of_le hble with heq | hlt
      · subst heq
        rw [hwk] at hgk
        injection hgk with hgk
        subst hgk
        exact Or.inr ⟨rfl, Or.inl rfl⟩
      · have huv : b - 1 < kg - 1 := by omega
        obtain ⟨hu, heu⟩ := List.getElem?_eq_some_iff.mp hwk
        obtain ⟨hv, hev⟩ := List.getElem?_eq_some_iff.mp hgk
        have hpair := List.pairwise_iff_getElem.mp
          (sortStableDesc_pairwise filters) (b - 1) (kg - 1) hu hv huv
        rw [heu, hev] at hpair
        simp only [priGe] at hpair
        rcases lt_or_eq_of_le hpair with hplt | hpeq
        · exact Or.inl hplt
        · refine Or.inr ⟨hpeq, Or.inr ?_⟩
          have h12 : List.Sublist [w, g] (sortStableDesc filters) :=
            pair_sublist (sortStableDesc filters) (b - 1) (kg - 1) w g huv hwk hgk
          have hfeq : List.filter (fun x => decide (x.priority = w.priority)) [w, g]
              = [w, g] := by
            simp [List.filter_cons, hpeq]
          have h13 := h12.filter (fun x => decide (x.priority = w.priority))
          rw [hfeq, sortStableDesc_filter filters w.priority] at h13
          exact h13.trans (List.filter_sublist filters)

/-- Witness for C2 (amended) at the counterexample instance. -/
theorem priority_winner_observed_witness :
    ∃ w, w ∈ observedFilters [cexFilterC, cexFilterD] ['a', 'b', 'a'] 0 ∧
      w.id = "B" ∧
      ∀ g ∈ observedFilters [cexFilterC, cexFilterD] ['a', 'b', 'a'] 0,
        g.priority < w.priority ∨
          (g.priority = w.priority ∧
            (w = g ∨ List.Sublist [w, g] [cexFilterC, cexFilterD])) :=
  priority_winner_observed [cexFilterC, cexFilterD] ['a', 'b', 'a'] 0 "B" (by decide)

/-! ## Claim C3: focus-view inclusion law -/

theorem mem_foldl_insert (l : List Nat) :
    ∀ (s : Finset Nat) (a : Nat),
      a ∈ l.foldl (fun t n => insert n t) s ↔ a ∈ s ∨ a ∈ l := by
  induction l with
  | nil =>
      intro s a
      simp
  | cons x rest ih =>
      intro s a
      simp only [List.foldl_cons]
      rw [ih (insert x s) a]
      simp only [Finset.mem_insert, List.mem_cons]
      tauto

theorem mem_foldl_insert_filters (fs : List Filter) (uri : String) :
    ∀ (s : Finset Nat) (a : Nat),
      a ∈ fs.foldl
          (fun s f => (f.getMatchedLines uri).foldl (fun t n => insert n t) s) s
        ↔ a ∈ s ∨ ∃ f ∈ fs, a ∈ f.getMatchedLines uri := by
  induction fs with
  | nil =>
      intro s a
      simp
  | cons f rest ih =>
      intro s a
      simp only [List.foldl_cons]
      rw [ih _ a, mem_foldl_insert]
      simp only [List.mem_cons]
      constructor
      · rintro ((hs | hf) | ⟨g, hg, hl⟩)
        · exact Or.inl hs
        · exact Or.inr ⟨f, Or.inl rfl, hf⟩
        · exact Or.inr ⟨g, Or.inr hg, hl⟩
      · rintro (hs | ⟨g, (rfl | hg), hl⟩)
        · exact Or.inl (Or.inl hs)
        · exact Or.inl (Or.inr hl)
        · exact Or.inr ⟨g, hg, hl⟩

theorem mem_foldl_erase (l : List Nat) :
    ∀ (s : Finset Nat) (a : Nat),
      a ∈ l.foldl (fun t n => t.erase n) s ↔ a ∈ s ∧ a ∉ l := by
  induction l with
  | nil =>
      intro s a
      simp
  | cons x rest ih =>
      intro s a
      simp only [List.foldl_cons]
      rw [ih (s.erase x) a]
      simp only [Finset.mem_erase, List.mem_cons]
      tauto

theorem mem_foldl_erase_filters (fs : List Filter) (uri : String) :
    ∀ (s : Finset Nat) (a : Nat),
      a ∈ fs.foldl
          (fun s f => (f.getMatchedLines uri).foldl (fun t n => t.erase n) s) s
        ↔ a ∈ s ∧ ∀ f ∈ fs, a ∉ f.getMatchedLines uri := by
  induction fs with
  | nil =>
      intro s a
      simp
  | cons f rest ih =>
      intro s a
      simp only [List.foldl_cons]
      rw [ih _ a, mem_foldl_erase]
      simp only [List.mem_cons]
      constructor
      · rintro ⟨⟨hs, hf⟩, hrest⟩
        refine ⟨hs, fun g hg => ?_⟩
        rcases hg with rfl | hg
        · exact hf
        · exact hrest g hg
      · rintro ⟨hs, hall⟩
        exact ⟨⟨hs, hall f (Or.inl rfl)⟩, fun g hg => hall g (Or.inr hg)⟩

theorem mem_active_inc (projectFilters : List Filter) (f : Filter) :
    f ∈ (getActiveFiltersSorted projectFilters).1 ↔
      f ∈ projectFilters ∧ f.focusAction = FocusAction.included := by
  simp only [getActiveFiltersSorted]
  rw [List.mem_filter, (sortStableDesc_perm _).mem_iff, List.mem_filter]
  simp only [decide_eq_true_eq]
  constructor
  · rintro ⟨⟨hmem, _⟩, hinc⟩
    exact ⟨hmem, hinc⟩
  · rintro ⟨hmem, hinc⟩
    exact ⟨⟨hmem, by simp [hinc]⟩, hinc⟩

theorem mem_active_exc (projectFilters : List Filter) (f : Filter) :
    f ∈ (getActiveFiltersSorted projectFilters).2 ↔
      f ∈ projectFilters ∧ f.focusAction = FocusAction.excluded := by
  simp only [getActiveFiltersSorted]
  rw [List.mem_filter, (sortStableDesc_perm _).mem_iff, List.mem_filter]
  simp only [decide_eq_true_eq]
  constructor
  · rintro ⟨⟨hmem, _⟩, hexc⟩
    exact ⟨hmem, hexc⟩
  · rintro ⟨hmem, hexc⟩
    exact ⟨⟨hmem, by simp [hexc]⟩, hexc⟩

theorem active_inc_nil (projectFilters : List Filter) :
    (getActiveFiltersSorted projectFilters).1 = [] ↔
      ∀ f ∈ projectFilters, ¬(f.focusAction = FocusAction.included) := by
  rw [List.eq_nil_iff_forall_not_mem]
  constructor
  · intro h f hf hinc
    exact h f ((mem_active_inc projectFilters f).mpr ⟨hf, hinc⟩)
  · intro h f hf
    obtain ⟨hm, hi⟩ := (mem_active_inc projectFilters f).mp hf
    exact h f hm hi

theorem mem_focusCandidates (inc : List Filter) (uri : String) (lineCount : Nat)
    (i : Nat) :
    i ∈ focusCandidates inc uri lineCount ↔
      (if inc.length > 0 then ∃ f ∈ inc, i ∈ f.getMatchedLines uri
       else i < lineCount) := by
  simp only [focusCandidates]
  split
  · rw [mem_foldl_insert_filters]
    simp
  · rw [mem_foldl_insert]
    simp [List.mem_range]

theorem mem_focusResultLines (projectFilters : List Filter) (uri : String)
    (lineCount : Nat) (i : Nat) :
    i ∈ focusResultLines projectFilters uri lineCount ↔
      ((if (getActiveFiltersSorted projectFilters).1.length > 0
        then ∃ f ∈ (getActiveFiltersSorted projectFilters).1,
          i ∈ f.getMatchedLines uri
        else i < lineCount) ∧
       ∀ g ∈ (getActiveFiltersSorted projectFilters).2,
         i ∉ g.getMatchedLines uri) := by
  simp only [focusResultLines]
  rw [mem_foldl_erase_filters, mem_focusCandidates]

/-- C3 (focus-view inclusion law): a line number of the document appears in
the generated focus view exactly when (no INCLUDED-action filter exists, or
some INCLUDED filter's cached matched-line set contains it) and no
EXCLUDED-action filter's cached matched-line set contains it — the exclusion
subtraction applies unconditionally, also when inclusive filters exist. -/
theorem focus_view_inclusion_law (projectFilters : List Filter) (uri : String)
    (lineCount : Nat) (i : Nat) (hi : i < lineCount) :
    i ∈ generateFilteredContent projectFilters uri lineCount ↔
      ((∀ f ∈ projectFilters, ¬(f.focusAction = FocusAction.included)) ∨
        ∃ f ∈ projectFilters, f.focusAction = FocusAction.included ∧
          i ∈ f.getMatchedLines uri) ∧
      (∀ g ∈ projectFilters, g.focusAction = FocusAction.excluded →
        i ∉ g.getMatchedLines uri) := by
  simp only [generateFilteredContent]
  rw [List.mem_filter, Finset.mem_sort, mem_focusResultLines]
  have hexc : (∀ g ∈ (getActiveFiltersSorted projectFilters).2,
      i ∉ g.getMatchedLines uri) ↔
      (∀ g ∈ projectFilters, g.focusAction = FocusAction.excluded →
        i ∉ g.getMatchedLines uri) := by
    constructor
    · intro h g hg hge
      exact h g ((mem_active_exc projectFilters g).mpr ⟨hg, hge⟩)
    · intro h g hg
      obtain ⟨hm, he⟩ := (mem_active_exc projectFilters g).mp hg
      exact h g hm he
  by_cases hinc : (getActiveFiltersSorted projectFilters).1 = []
  · have hlen : ¬((getActiveFiltersSorted projectFilters).1.length > 0) := by
      simp [hinc]
    rw [if_neg hlen]
    have hnone := (active_inc_nil projectFilters).mp hinc
    constructor
    · rintro ⟨⟨_, hsub⟩, _⟩
      exact ⟨Or.inl hnone, hexc.mp hsub⟩
    · rintro ⟨_, hsub⟩
      exact ⟨⟨hi, hexc.mpr hsub⟩, by simpa using hi⟩
  · have hlen : (getActiveFiltersSorted projectFilters).1.length > 0 := by
      cases hv : (getActiveFiltersSorted projectFilters).1 with
      | nil => exact absurd hv hinc
      | cons x t => simp [hv]
    rw [if_pos hlen]
    have hnnone : ¬(∀ f ∈ projectFilters, ¬(f.focusAction = FocusAction.included)) := by
      intro hall
      exact hinc ((active_inc_nil projectFilters).mpr hall)
    constructor
    · rintro ⟨⟨⟨f, hf, hfl⟩, hsub⟩, _⟩
      obtain ⟨hm, hia⟩ := (mem_active_inc projectFilters f).mp hf
      exact ⟨Or.inr ⟨f, hm, hia, hfl⟩, hexc.mp hsub⟩
    · rintro ⟨hin, hsub⟩
      rcases hin with hall | ⟨f, hm, hia, hfl⟩
      · exact absurd hall hnnone
      · exact ⟨⟨⟨f, (mem_active_inc projectFilters f).mpr ⟨hm, hia⟩, hfl⟩,
          hexc.mpr hsub⟩, by simpa using hi⟩

/-- Witness for C3 at the spec's scenario: included `/error/` cached `{1,3}`,
excluded `/debug/` cached `{3}`, five-line document — line 1 is visible. -/
theorem focus_view_inclusion_law_witness :
    1 ∈ generateFilteredContent [focusIncFilter, focusExcFilter] "doc" 5 :=
  (focus_view_inclusion_law [focusIncFilter, focusExcFilter] "doc" 5 1
    (by decide)).mpr (by decide)

end LogFocus
